import Mathlib

/-!
Shallow embedding of `src/stores.rs` of the `cached` crate: the three cache
stores `UnboundCache`, `SizedCache` (LRU over an arena-indexed doubly linked
list) and `TimedCache`, together with proofs of the specification claims.

Modelling conventions:
* `std::collections::HashMap` is modelled by `HMap`, an association list with
  unique keys; `insert` overwrites in place, `remove` deletes the (unique)
  matching entry.
* `usize`/`u32` counters are modelled by `Nat` (no operation here brings a
  counter anywhere near the machine bound, and overflow of `+= 1` aborts in
  checked builds rather than wrapping).
* `Vec` indexing is modelled by `List.getD`/`List.set`; indices are kept in
  bounds by the structural invariants proved below.  Rust code paths that
  abort (`panic!`, `expect`, `unwrap`) are modelled by `Option`, returning
  `none` exactly where the original aborts.
* `std::time::Instant` is modelled by a whole-second timestamp (`Nat`) passed
  explicitly to the time-dependent operations; `instant.elapsed().as_secs()`
  becomes truncating subtraction `now - stamp`.
-/

set_option autoImplicit false
set_option linter.unusedSectionVars false

section Defs

variable {K V T : Type}

/-- Model of `std::collections::HashMap` as an association list. -/
abbrev HMap (K V : Type) : Type := List (K × V)

namespace HMap

/-- `HashMap::get`. -/
def getOp [DecidableEq K] : HMap K V → K → Option V
  | [], _ => none
  | p :: t, k => if p.1 = k then some p.2 else getOp t k

/-- `HashMap::insert` (overwrites the value of an existing key in place). -/
def insertOp [DecidableEq K] : HMap K V → K → V → HMap K V
  | [], k, v => [(k, v)]
  | p :: t, k, v => if p.1 = k then (k, v) :: t else p :: insertOp t k v

/-- `HashMap::remove`: returns the removed value (if any) and the new map. -/
def removeOp [DecidableEq K] : HMap K V → K → Option V × HMap K V
  | [], _ => (none, [])
  | p :: t, k =>
    if p.1 = k then (some p.2, t)
    else
      let r := removeOp t k
      (r.1, p :: r.2)

end HMap

/-- One cell of the `LRUList` arena (`struct ListEntry<T>`). -/
structure ListEntry (T : Type) where
  value : Option T
  next : Nat
  prev : Nat
deriving DecidableEq

/-- Limited functionality doubly linked list using a `Vec` as storage
(`struct LRUList<T>`).  Free and occupied cells are each linked into a
cyclic list with one auxiliary cell: cell `0` heads the free list, cell `1`
heads the occupied list. -/
structure LRUList (T : Type) where
  values : List (ListEntry T)
deriving DecidableEq

namespace LRUList

/-- `LRUList::FREE`. -/
def FREE : Nat := 0

/-- `LRUList::OCCUPIED`. -/
def OCCUPIED : Nat := 1

/-- Default cell used for (invariant-excluded) out-of-range reads. -/
def dflt : ListEntry T := ⟨none, 0, 0⟩

/-- `self.values[i]`. -/
def entry (l : LRUList T) (i : Nat) : ListEntry T := l.values.getD i dflt

/-- `self.values[i].next = n`. -/
def updNext (l : LRUList T) (i n : Nat) : LRUList T :=
  ⟨l.values.set i { l.entry i with next := n }⟩

/-- `self.values[i].prev = p`. -/
def updPrev (l : LRUList T) (i p : Nat) : LRUList T :=
  ⟨l.values.set i { l.entry i with prev := p }⟩

/-- `self.values[i].value = v`. -/
def updValue (l : LRUList T) (i : Nat) (v : Option T) : LRUList T :=
  ⟨l.values.set i { l.entry i with value := v }⟩

/-- `LRUList::with_capacity` (capacity only pre-allocates in Rust; the
logical content is the two sentinel cells). -/
def with_capacity (_capacity : Nat) : LRUList T :=
  ⟨[⟨none, 0, 0⟩, ⟨none, 1, 1⟩]⟩

/-- `LRUList::unlink`. -/
def unlink (l : LRUList T) (index : Nat) : LRUList T :=
  let prev := (l.entry index).prev
  let next := (l.entry index).next
  (l.updNext prev next).updPrev next prev

/-- `LRUList::link_after`. -/
def link_after (l : LRUList T) (index prev : Nat) : LRUList T :=
  let next := (l.entry prev).next
  (((l.updPrev index prev).updNext index next).updNext prev index).updPrev next index

/-- `LRUList::move_to_front`. -/
def move_to_front (l : LRUList T) (index : Nat) : LRUList T :=
  (l.unlink index).link_after index OCCUPIED

/-- `LRUList::push_front`: returns the chosen slot index and the new list. -/
def push_front (l : LRUList T) (value : Option T) : Nat × LRUList T :=
  let l1 : LRUList T :=
    if (l.entry FREE).next = FREE then
      let grown : LRUList T := ⟨l.values ++ [⟨none, FREE, FREE⟩]⟩
      grown.updNext FREE (grown.values.length - 1)
    else l
  let index := (l1.entry FREE).next
  let l2 := l1.updValue index value
  (index, (l2.unlink index).link_after index OCCUPIED)

/-- `LRUList::remove`: `none` models the `expect("invalid index")` abort. -/
def remove (l : LRUList T) (index : Nat) : Option (T × LRUList T) :=
  let l1 := (l.unlink index).link_after index FREE
  match (l1.entry index).value with
  | none => none
  | some v => some (v, l1.updValue index none)

/-- `LRUList::back`. -/
def back (l : LRUList T) : Nat := (l.entry OCCUPIED).prev

/-- `LRUList::pop_back`. -/
def pop_back (l : LRUList T) : Option (T × LRUList T) := l.remove l.back

/-- `LRUList::get`: `none` models the `expect("invalid index")` abort. -/
def get (l : LRUList T) (index : Nat) : Option T := (l.entry index).value

/-- `LRUList::set`. -/
def set (l : LRUList T) (index : Nat) (value : T) : LRUList T :=
  l.updValue index (some value)

/-- `LRUList::clear`: reset to the two sentinel cells. -/
def clear (_l : LRUList T) : LRUList T := ⟨[⟨none, 0, 0⟩, ⟨none, 1, 1⟩]⟩

/-- Traversal of the occupied cycle (`LRUListIterator::next`), with explicit
fuel; the iterator also stops if it reaches a cell holding no payload
(`value.as_ref()` yields `None`). -/
def iterAux (l : LRUList T) : Nat → Nat → List T
  | 0, _ => []
  | fuel + 1, i =>
    let nxt := (l.entry i).next
    if nxt = OCCUPIED then []
    else
      match (l.entry nxt).value with
      | none => []
      | some v => v :: iterAux l fuel nxt

/-- `LRUList::iter`: payloads from most to least recently used. -/
def iter (l : LRUList T) : List T := iterAux l l.values.length OCCUPIED

/-- Adjacency in the doubly linked structure: `a`'s forward pointer reaches
`b` and `b`'s backward pointer reaches `a`. -/
def adj (l : LRUList T) (a b : Nat) : Prop :=
  (l.entry a).next = b ∧ (l.entry b).prev = a

/-- `pathOK l a c b`: starting at `a`, the cells of `c` are chained in order
by consistent next/prev pointers, ending with a link into `b`. -/
def pathOK (l : LRUList T) : Nat → List Nat → Nat → Prop
  | a, [], b => adj l a b
  | a, x :: xs, b => adj l a x ∧ pathOK l x xs b

/-- The cells `s :: c` form a doubly linked cycle, in this order. -/
def cycleOK (l : LRUList T) (s : Nat) (c : List Nat) : Prop := pathOK l s c s

/-- Structural invariant of an `LRUList`: the occupied cells `occ` and free
cells `free` form two disjoint doubly linked cycles headed by the two
auxiliary cells, all listed cells are in bounds, the arena holds nothing
besides the listed cells and the two auxiliary cells, and occupied cells
always hold a payload. -/
structure Inv (l : LRUList T) (occ free : List Nat) : Prop where
  nodup : (OCCUPIED :: (occ ++ FREE :: free)).Nodup
  bound : ∀ a ∈ occ ++ free, a < l.values.length
  cover : l.values.length = occ.length + free.length + 2
  occOK : cycleOK l OCCUPIED occ
  freeOK : cycleOK l FREE free
  occVal : ∀ i ∈ occ, ((l.entry i).value).isSome

end LRUList

/-- `struct SizedCache<K, V>`. -/
structure SizedCache (K V : Type) where
  store : HMap K Nat
  order : LRUList (K × V)
  capacity : Nat
  hits : Nat
  misses : Nat

namespace SizedCache

variable [DecidableEq K]

/-- `SizedCache::with_size`; `none` models the `panic!` on a zero size. -/
def with_size (size : Nat) : Option (SizedCache K V) :=
  if size = 0 then none
  else
    some { store := [], order := LRUList.with_capacity size, capacity := size,
           hits := 0, misses := 0 }

/-- `SizedCache::key_order` (as a materialised list, most recent first). -/
def key_order (c : SizedCache K V) : List K := c.order.iter.map Prod.fst

/-- `SizedCache::value_order` (as a materialised list, most recent first). -/
def value_order (c : SizedCache K V) : List V := c.order.iter.map Prod.snd

/-- `SizedCache::cache_get`: outer `none` models an internal-consistency
abort, the inner option is the hit/miss result. -/
def cache_get (c : SizedCache K V) (key : K) : Option (Option V × SizedCache K V) :=
  match HMap.getOp c.store key with
  | some index =>
    let order1 := c.order.move_to_front index
    match order1.get index with
    | none => none
    | some kv =>
      some (some kv.2, { c with order := order1, hits := c.hits + 1 })
  | none => some (none, { c with misses := c.misses + 1 })

/-- `SizedCache::cache_set`: evict the least recently used entry when at
capacity, then insert or overwrite in place.  `none` models the aborts of
`pop_back`/`expect` during eviction. -/
def cache_set (c : SizedCache K V) (key : K) (val : V) : Option (SizedCache K V) :=
  let evicted : Option (SizedCache K V) :=
    if c.capacity ≤ c.store.length then
      match c.order.pop_back with
      | none => none
      | some (kv, order1) =>
        match HMap.removeOp c.store kv.1 with
        | (none, _) => none
        | (some _, store1) => some { c with store := store1, order := order1 }
    else some c
  evicted.bind fun c1 =>
    match HMap.getOp c1.store key with
    | some index => some { c1 with order := c1.order.set index (key, val) }
    | none =>
      let pf := c1.order.push_front none
      some { c1 with store := HMap.insertOp c1.store key pf.1,
                     order := pf.2.set pf.1 (key, val) }

/-- `SizedCache::cache_remove`; outer `none` models an internal-consistency
abort. -/
def cache_remove (c : SizedCache K V) (k : K) : Option (Option V × SizedCache K V) :=
  match HMap.removeOp c.store k with
  | (some index, store1) =>
    match c.order.remove index with
    | none => none
    | some (kv, order1) =>
      some (some kv.2, { c with store := store1, order := order1 })
  | (none, _) => some (none, c)

/-- `SizedCache::cache_clear`. -/
def cache_clear (c : SizedCache K V) : SizedCache K V :=
  { c with store := [], order := c.order.clear }

/-- `SizedCache::cache_reset` (identical to `cache_clear`). -/
def cache_reset (c : SizedCache K V) : SizedCache K V := c.cache_clear

/-- `SizedCache::cache_size`. -/
def cache_size (c : SizedCache K V) : Nat := c.store.length

end SizedCache

/-- One operation of the `Cached` capability contract. -/
inductive CacheOp (K V : Type) : Type
  | get (k : K)
  | set (k : K) (v : V)
  | remove (k : K)
  | clear
  | reset

namespace SizedCache

variable [DecidableEq K]

/-- Run one contract operation on a `SizedCache` (discarding the returned
value); `none` models an abort. -/
def step (c : SizedCache K V) : CacheOp K V → Option (SizedCache K V)
  | CacheOp.get k => (c.cache_get k).map Prod.snd
  | CacheOp.set k v => c.cache_set k v
  | CacheOp.remove k => (c.cache_remove k).map Prod.snd
  | CacheOp.clear => some c.cache_clear
  | CacheOp.reset => some c.cache_reset

/-- Run a sequence of contract operations on a `SizedCache`. -/
def runOps : SizedCache K V → List (CacheOp K V) → Option (SizedCache K V)
  | c, [] => some c
  | c, op :: t => (c.step op).bind fun c1 => runOps c1 t

/-- Run a sequence of `cache_set` calls on a `SizedCache`. -/
def runSets : SizedCache K V → List (K × V) → Option (SizedCache K V)
  | c, [] => some c
  | c, p :: t => (c.cache_set p.1 p.2).bind fun c1 => runSets c1 t

/-- A `SizedCache` state is reachable when some sequence of contract
operations, starting from a successfully constructed cache, produces it. -/
def Reachable (c : SizedCache K V) : Prop :=
  ∃ (size : Nat) (c0 : SizedCache K V) (ops : List (CacheOp K V)),
    with_size size = some c0 ∧ runOps c0 ops = some c

/-- Abstract model of one `cache_set` on an LRU cache whose content is the
most-recent-first pair list `a`: evict the last pair when at capacity, then
either overwrite the key in place or push the new pair to the front. -/
def absSet [DecidableEq K] (cap : Nat) (a : List (K × V)) (k : K) (v : V) :
    List (K × V) :=
  let a1 := if cap ≤ a.length then a.dropLast else a
  if k ∈ a1.map Prod.fst then a1.map (fun p => if p.1 = k then (k, v) else p)
  else (k, v) :: a1

/-- Abstract model of one `cache_get`: a present key is moved to the front
and its value returned. -/
def absGet [DecidableEq K] (a : List (K × V)) (k : K) :
    Option V × List (K × V) :=
  match a.find? (fun p => decide (p.1 = k)) with
  | some p => (some p.2, p :: a.eraseP (fun q => decide (q.1 = k)))
  | none => (none, a)

/-- Abstract model of a sequence of `cache_set` calls. -/
def absRunSets [DecidableEq K] (cap : Nat) : List (K × V) → List (K × V) → List (K × V)
  | a, [] => a
  | a, p :: t => absRunSets cap (absSet cap a p.1 p.2) t

/-- Coupling invariant of a `SizedCache`: `occ`/`free` are the occupied and
free cycles of the order list, the payloads along `occ` are exactly the
abstract content list `a` (most recently used first), and the hash index
agrees with the occupied cycle. -/
structure Rep [DecidableEq K] (c : SizedCache K V) (occ free : List Nat)
    (a : List (K × V)) : Prop where
  lru : LRUList.Inv c.order occ free
  absEq : occ.map (fun i => (c.order.entry i).value) = a.map some
  sto1 : ∀ i ∈ occ, ∃ k v, (c.order.entry i).value = some (k, v) ∧
    HMap.getOp c.store k = some i
  sto2 : ∀ k i, HMap.getOp c.store k = some i →
    i ∈ occ ∧ ∃ v, (c.order.entry i).value = some (k, v)
  klen : c.store.length = occ.length
  knd : (c.store.map Prod.fst).Nodup
  aknd : (a.map Prod.fst).Nodup
  capPos : 0 < c.capacity
  sizeLe : c.store.length ≤ c.capacity

end SizedCache

/-- Concrete example states used by the witnesses below: a fresh capacity-2
cache, the same cache holding key 1, a full capacity-2 cache holding keys
1 and 2, and a full capacity-3 cache holding keys 1, 2 and 3. -/
def exBase2 : SizedCache Nat Nat :=
  { store := [], order := LRUList.with_capacity 2, capacity := 2,
    hits := 0, misses := 0 }

/-- `exBase2` after `cache_set 1 10`. -/
def exOne2 : SizedCache Nat Nat :=
  (SizedCache.runOps exBase2 [CacheOp.set 1 10]).getD exBase2

/-- `exBase2` after setting keys 1 and 2 (full, key order `[2, 1]`). -/
def exFull2 : SizedCache Nat Nat :=
  (SizedCache.runOps exBase2 [CacheOp.set 1 10, CacheOp.set 2 20]).getD exBase2

/-- A fresh capacity-3 cache. -/
def exBase3 : SizedCache Nat Nat :=
  { store := [], order := LRUList.with_capacity 3, capacity := 3,
    hits := 0, misses := 0 }

/-- `exBase3` after setting keys 1, 2 and 3 (full, key order `[3, 2, 1]`). -/
def exFull3 : SizedCache Nat Nat :=
  (SizedCache.runOps exBase3
    [CacheOp.set 1 10, CacheOp.set 2 20, CacheOp.set 3 30]).getD exBase3

/-- `struct UnboundCache<K, V>`. -/
structure UnboundCache (K V : Type) where
  store : HMap K V
  hits : Nat
  misses : Nat
  initial_capacity : Option Nat

namespace UnboundCache

variable [DecidableEq K]

/-- `UnboundCache::new`. -/
def new : UnboundCache K V :=
  { store := [], hits := 0, misses := 0, initial_capacity := none }

/-- `UnboundCache::with_capacity`. -/
def with_capacity (size : Nat) : UnboundCache K V :=
  { store := [], hits := 0, misses := 0, initial_capacity := some size }

/-- `UnboundCache::cache_get`. -/
def cache_get (c : UnboundCache K V) (key : K) : Option V × UnboundCache K V :=
  match HMap.getOp c.store key with
  | some v => (some v, { c with hits := c.hits + 1 })
  | none => (none, { c with misses := c.misses + 1 })

/-- `UnboundCache::cache_set`. -/
def cache_set (c : UnboundCache K V) (key : K) (val : V) : UnboundCache K V :=
  { c with store := HMap.insertOp c.store key val }

/-- `UnboundCache::cache_remove`. -/
def cache_remove (c : UnboundCache K V) (k : K) : Option V × UnboundCache K V :=
  let r := HMap.removeOp c.store k
  (r.1, { c with store := r.2 })

/-- `UnboundCache::cache_clear`. -/
def cache_clear (c : UnboundCache K V) : UnboundCache K V := { c with store := [] }

/-- `UnboundCache::cache_reset` (a fresh store; capacity pre-allocation is
not part of the logical model). -/
def cache_reset (c : UnboundCache K V) : UnboundCache K V := { c with store := [] }

/-- `UnboundCache::cache_size`. -/
def cache_size (c : UnboundCache K V) : Nat := c.store.length

/-- Run one contract operation on an `UnboundCache` (no operation aborts). -/
def step (c : UnboundCache K V) : CacheOp K V → UnboundCache K V
  | CacheOp.get k => (c.cache_get k).2
  | CacheOp.set k v => c.cache_set k v
  | CacheOp.remove k => (c.cache_remove k).2
  | CacheOp.clear => c.cache_clear
  | CacheOp.reset => c.cache_reset

/-- Run a sequence of contract operations on an `UnboundCache`. -/
def runOps : UnboundCache K V → List (CacheOp K V) → UnboundCache K V
  | c, [] => c
  | c, op :: t => runOps (c.step op) t

end UnboundCache

/-- `enum Status` used by `TimedCache::cache_get`. -/
inductive Status : Type
  | NotFound
  | Found
  | Expired

/-- `struct TimedCache<K, V>`: values are stamped with their insertion time
(in whole seconds). -/
structure TimedCache (K V : Type) where
  store : HMap K (Nat × V)
  seconds : Nat
  hits : Nat
  misses : Nat
  initial_capacity : Option Nat

namespace TimedCache

variable [DecidableEq K]

/-- `TimedCache::with_lifespan`. -/
def with_lifespan (seconds : Nat) : TimedCache K V :=
  { store := [], seconds := seconds, hits := 0, misses := 0,
    initial_capacity := none }

/-- `TimedCache::with_lifespan_and_capacity`. -/
def with_lifespan_and_capacity (seconds : Nat) (size : Nat) : TimedCache K V :=
  { store := [], seconds := seconds, hits := 0, misses := 0,
    initial_capacity := some size }

/-- `TimedCache::cache_get` at time `now`; the outer `none` models the
`unwrap` abort on the expired path. -/
def cache_get (c : TimedCache K V) (now : Nat) (key : K) :
    Option (Option V × TimedCache K V) :=
  let status :=
    match HMap.getOp c.store key with
    | some sv => if now - sv.1 < c.seconds then Status.Found else Status.Expired
    | none => Status.NotFound
  match status with
  | Status.NotFound => some (none, { c with misses := c.misses + 1 })
  | Status.Found =>
    some ((HMap.getOp c.store key).map Prod.snd, { c with hits := c.hits + 1 })
  | Status.Expired =>
    match HMap.removeOp c.store key with
    | (none, _) => none
    | (some _, store1) => some (none, { c with misses := c.misses + 1, store := store1 })

/-- `TimedCache::cache_set` at time `now`. -/
def cache_set (c : TimedCache K V) (now : Nat) (key : K) (val : V) : TimedCache K V :=
  { c with store := HMap.insertOp c.store key (now, val) }

/-- `TimedCache::cache_remove`. -/
def cache_remove (c : TimedCache K V) (k : K) : Option V × TimedCache K V :=
  let r := HMap.removeOp c.store k
  ((r.1).map Prod.snd, { c with store := r.2 })

/-- `TimedCache::cache_clear`. -/
def cache_clear (c : TimedCache K V) : TimedCache K V := { c with store := [] }

/-- `TimedCache::cache_reset`. -/
def cache_reset (c : TimedCache K V) : TimedCache K V := { c with store := [] }

/-- `TimedCache::cache_size`. -/
def cache_size (c : TimedCache K V) : Nat := c.store.length

/-- Run one contract operation on a `TimedCache`; the operation carries the
wall-clock time (in seconds) at which it is issued. -/
def step (c : TimedCache K V) : Nat × CacheOp K V → Option (TimedCache K V)
  | (now, CacheOp.get k) => (c.cache_get now k).map Prod.snd
  | (now, CacheOp.set k v) => some (c.cache_set now k v)
  | (_, CacheOp.remove k) => some (c.cache_remove k).2
  | (_, CacheOp.clear) => some c.cache_clear
  | (_, CacheOp.reset) => some c.cache_reset

/-- Run a sequence of timestamped contract operations on a `TimedCache`. -/
def runOps : TimedCache K V → List (Nat × CacheOp K V) → Option (TimedCache K V)
  | c, [] => some c
  | c, op :: t => (c.step op).bind fun c1 => runOps c1 t

end TimedCache

end Defs

section HMapLemmas

namespace HMap

variable {K V : Type} [DecidableEq K]

theorem getOp_insertOp_self (m : HMap K V) (k : K) (v : V) :
    getOp (insertOp m k v) k = some v := by
  induction m with
  | nil => simp [insertOp, getOp]
  | cons p t ih =>
    obtain ⟨a, b⟩ := p
    by_cases h : a = k
    · simp [insertOp, getOp, h]
    · simp [insertOp, getOp, h, ih]

theorem getOp_insertOp_ne (m : HMap K V) {k k' : K} (v : V) (h : k' ≠ k) :
    getOp (insertOp m k v) k' = getOp m k' := by
  have h' : k ≠ k' := Ne.symm h
  induction m with
  | nil => simp [insertOp, getOp, h']
  | cons p t ih =>
    obtain ⟨a, b⟩ := p
    by_cases hp : a = k
    · subst hp
      simp [insertOp, getOp, h']
    · simp [insertOp, getOp, hp, ih]

theorem insertOp_of_getOp_none (m : HMap K V) {k : K} (v : V)
    (h : getOp m k = none) : insertOp m k v = m ++ [(k, v)] := by
  induction m with
  | nil => simp [insertOp]
  | cons p t ih =>
    obtain ⟨a, b⟩ := p
    by_cases hp : a = k
    · simp [getOp, hp] at h
    · simp only [getOp, if_neg hp] at h
      simp [insertOp, hp, ih h]

theorem length_insertOp_present (m : HMap K V) {k : K} (v : V)
    (h : (getOp m k).isSome) : (insertOp m k v).length = m.length := by
  induction m with
  | nil => simp [getOp] at h
  | cons p t ih =>
    obtain ⟨a, b⟩ := p
    by_cases hp : a = k
    · simp [insertOp, hp]
    · simp only [getOp, if_neg hp] at h
      simp [insertOp, hp, ih h]

theorem map_fst_insertOp_present (m : HMap K V) {k : K} (v : V)
    (h : (getOp m k).isSome) :
    (insertOp m k v).map Prod.fst = m.map Prod.fst := by
  induction m with
  | nil => simp [getOp] at h
  | cons p t ih =>
    obtain ⟨a, b⟩ := p
    by_cases hp : a = k
    · simp [insertOp, hp]
    · simp only [getOp, if_neg hp] at h
      simp [insertOp, hp, ih h]

theorem removeOp_fst (m : HMap K V) (k : K) : (removeOp m k).1 = getOp m k := by
  induction m with
  | nil => simp [removeOp, getOp]
  | cons p t ih =>
    obtain ⟨a, b⟩ := p
    by_cases hp : a = k
    · simp [removeOp, getOp, hp]
    · simp [removeOp, getOp, hp, ih]

theorem removeOp_of_getOp_none (m : HMap K V) {k : K} (h : getOp m k = none) :
    (removeOp m k).2 = m := by
  induction m with
  | nil => simp [removeOp]
  | cons p t ih =>
    obtain ⟨a, b⟩ := p
    by_cases hp : a = k
    · simp [getOp, hp] at h
    · simp only [getOp, if_neg hp] at h
      simp [removeOp, hp, ih h]

theorem removeOp_sublist (m : HMap K V) (k : K) : (removeOp m k).2.Sublist m := by
  induction m with
  | nil => simp [removeOp]
  | cons p t ih =>
    obtain ⟨a, b⟩ := p
    by_cases hp : a = k
    · simp only [removeOp, if_pos hp]
      exact List.sublist_cons_self (a, b) t
    · simp only [removeOp, if_neg hp]
      exact List.Sublist.cons₂ (a, b) ih

theorem getOp_removeOp_ne (m : HMap K V) {k k' : K} (h : k' ≠ k) :
    getOp (removeOp m k).2 k' = getOp m k' := by
  have h' : k ≠ k' := Ne.symm h
  induction m with
  | nil => simp [removeOp]
  | cons p t ih =>
    obtain ⟨a, b⟩ := p
    by_cases hp : a = k
    · subst hp
      simp [removeOp, getOp, h']
    · simp [removeOp, getOp, hp, ih]

theorem getOp_eq_none_iff (m : HMap K V) (k : K) :
    getOp m k = none ↔ k ∉ m.map Prod.fst := by
  induction m with
  | nil => simp [getOp]
  | cons p t ih =>
    obtain ⟨a, b⟩ := p
    by_cases hp : a = k
    · simp [getOp, hp]
    · simp [getOp, hp, ih, Ne.symm hp]

theorem getOp_isSome_iff (m : HMap K V) (k : K) :
    (getOp m k).isSome ↔ k ∈ m.map Prod.fst := by
  induction m with
  | nil => simp [getOp]
  | cons p t ih =>
    obtain ⟨a, b⟩ := p
    by_cases hp : a = k
    · simp [getOp, hp]
    · simp [getOp, hp, ih, Ne.symm hp]

theorem getOp_removeOp_self (m : HMap K V) (k : K)
    (hnd : (m.map Prod.fst).Nodup) : getOp (removeOp m k).2 k = none := by
  induction m with
  | nil => simp [removeOp, getOp]
  | cons p t ih =>
    obtain ⟨a, b⟩ := p
    simp only [List.map_cons, List.nodup_cons] at hnd
    by_cases hp : a = k
    · subst hp
      simp only [removeOp, if_pos rfl]
      rw [getOp_eq_none_iff]
      exact hnd.1
    · simp [removeOp, getOp, hp, ih hnd.2]

theorem length_removeOp_present (m : HMap K V) {k : K}
    (h : (getOp m k).isSome) : m.length = (removeOp m k).2.length + 1 := by
  induction m with
  | nil => simp [getOp] at h
  | cons p t ih =>
    obtain ⟨a, b⟩ := p
    by_cases hp : a = k
    · simp [removeOp, hp]
    · simp only [getOp, if_neg hp] at h
      simp [removeOp, hp, ih h]

theorem getOp_mem (m : HMap K V) {k : K} {v : V} (h : getOp m k = some v) :
    (k, v) ∈ m := by
  induction m with
  | nil => simp [getOp] at h
  | cons p t ih =>
    obtain ⟨a, b⟩ := p
    by_cases hp : a = k
    · subst hp
      have hb : getOp ((a, b) :: t) a = some b := by simp [getOp]
      rw [hb] at h
      injection h with h2
      subst h2
      exact List.mem_cons_self (a, b) t
    · simp only [getOp, if_neg hp] at h
      exact List.mem_cons_of_mem (a, b) (ih h)

end HMap

end HMapLemmas

section LRUListLemmas

namespace LRUList

variable {T : Type}

theorem length_updNext (l : LRUList T) (i n : Nat) :
    (l.updNext i n).values.length = l.values.length := l.values.length_set ..

theorem length_updPrev (l : LRUList T) (i p : Nat) :
    (l.updPrev i p).values.length = l.values.length := l.values.length_set ..

theorem length_updValue (l : LRUList T) (i : Nat) (v : Option T) :
    (l.updValue i v).values.length = l.values.length := l.values.length_set ..

theorem entry_mk_set (vals : List (ListEntry T)) (i j : Nat) (e : ListEntry T) :
    (LRUList.mk (vals.set i e)).entry j =
      if i = j ∧ i < vals.length then e else (LRUList.mk vals).entry j := by
  by_cases h : i = j
  · subst h
    by_cases hlt : i < vals.length
    · simp [entry, List.getD_eq_getElem?_getD, List.getElem?_set_self hlt, hlt]
    · have hnone : vals[i]? = none := List.getElem?_eq_none (le_of_not_lt hlt)
      simp [entry, List.getD_eq_getElem?_getD, List.getElem?_set, hlt, hnone]
  · simp [entry, List.getD_eq_getElem?_getD, List.getElem?_set_ne h, h]

theorem entry_updNext_self (l : LRUList T) {i : Nat} (h : i < l.values.length)
    (n : Nat) : (l.updNext i n).entry i = { l.entry i with next := n } := by
  rw [updNext, entry_mk_set]
  simp [h]

theorem entry_updNext_ne (l : LRUList T) {i j : Nat} (h : j ≠ i) (n : Nat) :
    (l.updNext i n).entry j = l.entry j := by
  rw [updNext, entry_mk_set, if_neg (fun hc => h hc.1.symm)]

theorem entry_updPrev_self (l : LRUList T) {i : Nat} (h : i < l.values.length)
    (p : Nat) : (l.updPrev i p).entry i = { l.entry i with prev := p } := by
  rw [updPrev, entry_mk_set]
  simp [h]

theorem entry_updPrev_ne (l : LRUList T) {i j : Nat} (h : j ≠ i) (p : Nat) :
    (l.updPrev i p).entry j = l.entry j := by
  rw [updPrev, entry_mk_set, if_neg (fun hc => h hc.1.symm)]

theorem entry_updValue_self (l : LRUList T) {i : Nat} (h : i < l.values.length)
    (v : Option T) : (l.updValue i v).entry i = { l.entry i with value := v } := by
  rw [updValue, entry_mk_set]
  simp [h]

theorem entry_updValue_ne (l : LRUList T) {i j : Nat} (h : j ≠ i) (v : Option T) :
    (l.updValue i v).entry j = l.entry j := by
  rw [updValue, entry_mk_set, if_neg (fun hc => h hc.1.symm)]

theorem value_updNext (l : LRUList T) (i n j : Nat) :
    ((l.updNext i n).entry j).value = (l.entry j).value := by
  rw [updNext, entry_mk_set]
  by_cases h : i = j ∧ i < l.values.length
  · rw [if_pos h, h.1]
  · rw [if_neg h]

theorem value_updPrev (l : LRUList T) (i p j : Nat) :
    ((l.updPrev i p).entry j).value = (l.entry j).value := by
  rw [updPrev, entry_mk_set]
  by_cases h : i = j ∧ i < l.values.length
  · rw [if_pos h, h.1]
  · rw [if_neg h]

theorem links_updValue_next (l : LRUList T) (i : Nat) (v : Option T) (j : Nat) :
    ((l.updValue i v).entry j).next = (l.entry j).next := by
  rw [updValue, entry_mk_set]
  by_cases h : i = j ∧ i < l.values.length
  · rw [if_pos h, h.1]
  · rw [if_neg h]

theorem links_updValue_prev (l : LRUList T) (i : Nat) (v : Option T) (j : Nat) :
    ((l.updValue i v).entry j).prev = (l.entry j).prev := by
  rw [updValue, entry_mk_set]
  by_cases h : i = j ∧ i < l.values.length
  · rw [if_pos h, h.1]
  · rw [if_neg h]

theorem pathOK_append (l : LRUList T) (a b m : Nat) (u w : List Nat) :
    pathOK l a (u ++ m :: w) b ↔ pathOK l a u m ∧ pathOK l m w b := by
  induction u generalizing a with
  | nil => simp [pathOK]
  | cons x xs ih => simp [pathOK, ih, and_assoc]

theorem pathOK_concat (l : LRUList T) (a b p : Nat) (u : List Nat) :
    pathOK l a (u ++ [p]) b ↔ pathOK l a u p ∧ adj l p b := by
  have h := pathOK_append l a b p u []
  simpa [pathOK] using h

theorem pathOK_congr {l l' : LRUList T} {a b : Nat} {u : List Nat}
    (hnext : ∀ x, x = a ∨ x ∈ u → (l'.entry x).next = (l.entry x).next)
    (hprev : ∀ x, x ∈ u ∨ x = b → (l'.entry x).prev = (l.entry x).prev) :
    pathOK l a u b → pathOK l' a u b := by
  induction u generalizing a with
  | nil =>
    intro h
    exact ⟨(hnext a (Or.inl rfl)).trans h.1, (hprev b (Or.inr rfl)).trans h.2⟩
  | cons x xs ih =>
    intro h
    refine ⟨⟨(hnext a (Or.inl rfl)).trans h.1.1,
            (hprev x (Or.inl (List.mem_cons_self x xs))).trans h.1.2⟩, ?_⟩
    exact ih (fun y hy => hnext y (by rcases hy with h1 | h1 <;> simp [h1]))
      (fun y hy => hprev y (by rcases hy with h1 | h1 <;> simp [h1])) h.2

theorem pathOK_entry_congr {l l' : LRUList T} {a b : Nat} {u : List Nat}
    (h : ∀ x, x ∈ a :: u ++ [b] → l'.entry x = l.entry x) :
    pathOK l a u b → pathOK l' a u b := by
  refine pathOK_congr (fun x hx => ?_) (fun x hx => ?_)
  · rw [h x (by rcases hx with h1 | h1 <;> simp [h1])]
  · rw [h x (by rcases hx with h1 | h1 <;> simp [h1])]

theorem pathOK_last_adj {l : LRUList T} {a b : Nat} {u : List Nat} :
    pathOK l a u b → adj l ((a :: u).getLast (List.cons_ne_nil a u)) b := by
  induction u generalizing a with
  | nil => intro h; simpa using h
  | cons x xs ih =>
    intro h
    have := ih h.2
    simpa [List.getLast_cons] using this

theorem pathOK_head_adj {l : LRUList T} {a b : Nat} {u : List Nat} :
    pathOK l a u b → adj l a (u.headD b) := by
  cases u with
  | nil => intro h; exact h
  | cons x xs => intro h; exact h.1

end LRUList

end LRUListLemmas

section UnlinkSpec

namespace LRUList

variable {T : Type}

theorem length_unlink (l : LRUList T) (i : Nat) :
    (l.unlink i).values.length = l.values.length := by
  simp only [unlink]
  rw [length_updPrev, length_updNext]

theorem length_link_after (l : LRUList T) (i s : Nat) :
    (l.link_after i s).values.length = l.values.length := by
  simp only [link_after]
  rw [length_updPrev, length_updNext, length_updNext, length_updPrev]

theorem value_unlink (l : LRUList T) (i a : Nat) :
    ((l.unlink i).entry a).value = (l.entry a).value := by
  simp only [unlink]
  rw [value_updPrev, value_updNext]

theorem value_link_after (l : LRUList T) (i s a : Nat) :
    ((l.link_after i s).entry a).value = (l.entry a).value := by
  simp only [link_after]
  rw [value_updPrev, value_updNext, value_updNext, value_updPrev]

theorem entry_unlink_p {l : LRUList T} {p n : Nat} (hpn : p ≠ n)
    (hpb : p < l.values.length) :
    ((l.updNext p n).updPrev n p).entry p = { l.entry p with next := n } := by
  rw [entry_updPrev_ne _ hpn, entry_updNext_self _ hpb]

theorem entry_unlink_n {l : LRUList T} {p n : Nat} (hpn : p ≠ n)
    (hnb : n < l.values.length) :
    ((l.updNext p n).updPrev n p).entry n = { l.entry n with prev := p } := by
  have hnb' : n < (l.updNext p n).values.length := by rw [length_updNext]; exact hnb
  rw [entry_updPrev_self _ hnb', entry_updNext_ne _ (Ne.symm hpn)]

theorem entry_unlink_other {l : LRUList T} {p n a : Nat} (hap : a ≠ p)
    (han : a ≠ n) :
    ((l.updNext p n).updPrev n p).entry a = l.entry a := by
  rw [entry_updPrev_ne _ han, entry_updNext_ne _ hap]

/-- Effect of `unlink i` on a doubly linked cycle `s :: u ++ i :: w`: the
cell `i` is spliced out, every payload is untouched, and cells outside the
remaining cycle keep their entries. -/
theorem unlink_spec (l : LRUList T) (s i : Nat) (u w : List Nat)
    (hnd : (s :: (u ++ i :: w)).Nodup)
    (hbd : ∀ a ∈ s :: (u ++ i :: w), a < l.values.length)
    (hC : cycleOK l s (u ++ i :: w)) :
    (l.unlink i).values.length = l.values.length ∧
    cycleOK (l.unlink i) s (u ++ w) ∧
    (∀ a, ((l.unlink i).entry a).value = (l.entry a).value) ∧
    (∀ a, a ∉ s :: (u ++ w) → (l.unlink i).entry a = l.entry a) := by
  obtain ⟨h1, h2⟩ := (pathOK_append l s s i u w).1 hC
  rw [List.nodup_cons] at hnd
  obtain ⟨hsm, hnd2⟩ := hnd
  rw [List.nodup_append] at hnd2
  obtain ⟨hndu, hndiw, hdis⟩ := hnd2
  rw [List.nodup_cons] at hndiw
  obtain ⟨hiw, hndw⟩ := hndiw
  have hsu : s ∉ u := fun h => hsm (List.mem_append_left _ h)
  have hsi : s ≠ i := fun h => hsm (by simp [h])
  have hsw : s ∉ w := fun h => hsm (by simp [h])
  have hbs : s < l.values.length := hbd s (by simp)
  rcases List.eq_nil_or_concat u with hu | ⟨u', q, hu⟩
  · subst hu
    cases w with
    | nil =>
      have hadj2 : adj l s i := by simpa [pathOK] using h1
      have hadj : adj l i s := by simpa [pathOK] using h2
      have hul : l.unlink i = (l.updNext s s).updPrev s s := by
        simp only [unlink]
        rw [hadj2.2, hadj.1]
      have hsb' : s < (l.updNext s s).values.length := by
        rw [length_updNext]; exact hbs
      refine ⟨length_unlink l i, ?_, fun a => value_unlink l i a, ?_⟩
      · show pathOK (l.unlink i) s [] s
        rw [hul]
        constructor
        · rw [entry_updPrev_self _ hsb', entry_updNext_self _ hbs]
        · rw [entry_updPrev_self _ hsb']
      · intro a ha
        have has : a ≠ s := by simpa using ha
        rw [hul, entry_updPrev_ne _ has, entry_updNext_ne _ has]
    | cons w₀ w' =>
      have hadj_si : adj l s i := by simpa [pathOK] using h1
      have hadj_iw : adj l i w₀ := h2.1
      have hpw : pathOK l w₀ w' s := h2.2
      have hsw₀ : s ≠ w₀ := fun h => hsw (by simp [h])
      have hw₀w' : w₀ ∉ w' := (List.nodup_cons.1 hndw).1
      have hw₀b : w₀ < l.values.length := hbd w₀ (by simp)
      have hul : l.unlink i = (l.updNext s w₀).updPrev w₀ s := by
        simp only [unlink]
        rw [hadj_si.2, hadj_iw.1]
      have hep : (l.unlink i).entry s = { l.entry s with next := w₀ } := by
        rw [hul]; exact entry_unlink_p hsw₀ hbs
      have hen : (l.unlink i).entry w₀ = { l.entry w₀ with prev := s } := by
        rw [hul]; exact entry_unlink_n hsw₀ hw₀b
      have hoth : ∀ a, a ≠ s → a ≠ w₀ → (l.unlink i).entry a = l.entry a := by
        intro a h1a h2a
        rw [hul]; exact entry_unlink_other h1a h2a
      have hnexteq : ∀ x, x ≠ s → ((l.unlink i).entry x).next = (l.entry x).next := by
        intro x hx
        by_cases hxw : x = w₀
        · subst hxw; rw [hen]
        · rw [hoth x hx hxw]
      have hpreveq : ∀ x, x ≠ w₀ → ((l.unlink i).entry x).prev = (l.entry x).prev := by
        intro x hx
        by_cases hxs : x = s
        · subst hxs; rw [hep]
        · rw [hoth x hxs hx]
      refine ⟨length_unlink l i, ?_, fun a => value_unlink l i a, ?_⟩
      · show pathOK (l.unlink i) s ([] ++ w₀ :: w') s
        refine ⟨⟨?_, ?_⟩, ?_⟩
        · rw [hep]
        · rw [hen]
        · refine pathOK_congr ?_ ?_ hpw
          · intro x hx
            refine hnexteq x fun he => hsw ?_
            subst he
            rcases hx with h | h
            · simp [h]
            · simp [h]
          · intro x hx
            refine hpreveq x fun he => ?_
            subst he
            rcases hx with h | h
            · exact hw₀w' h
            · exact hsw₀ h.symm
      · intro a ha
        have has : a ≠ s := fun he => ha (by simp [he])
        have haw : a ≠ w₀ := fun he => ha (by simp [he])
        exact hoth a has haw
  · rw [List.concat_eq_append] at hu
    subst hu
    have hqu : q ∈ u' ++ [q] := by simp
    have hqs : q ≠ s := fun he => hsu (he ▸ hqu)
    have hqb : q < l.values.length := hbd q (by simp)
    have hqu' : q ∉ u' := by
      have hnd' := hndu
      rw [List.nodup_append] at hnd'
      exact fun h => hnd'.2.2 h (by simp)
    obtain ⟨h1a, hqi⟩ := (pathOK_concat l s i q u').1 h1
    cases w with
    | nil =>
      have hadj_is : adj l i s := by simpa [pathOK] using h2
      have hul : l.unlink i = (l.updNext q s).updPrev s q := by
        simp only [unlink]
        rw [hqi.2, hadj_is.1]
      have hep : (l.unlink i).entry q = { l.entry q with next := s } := by
        rw [hul]; exact entry_unlink_p hqs hqb
      have hen : (l.unlink i).entry s = { l.entry s with prev := q } := by
        rw [hul]; exact entry_unlink_n hqs hbs
      have hoth : ∀ a, a ≠ q → a ≠ s → (l.unlink i).entry a = l.entry a := by
        intro a h1a' h2a
        rw [hul]; exact entry_unlink_other h1a' h2a
      have hnexteq : ∀ x, x ≠ q → ((l.unlink i).entry x).next = (l.entry x).next := by
        intro x hx
        by_cases hxs : x = s
        · subst hxs; rw [hen]
        · rw [hoth x hx hxs]
      have hpreveq : ∀ x, x ≠ s → ((l.unlink i).entry x).prev = (l.entry x).prev := by
        intro x hx
        by_cases hxq : x = q
        · subst hxq; rw [hep]
        · rw [hoth x hxq hx]
      refine ⟨length_unlink l i, ?_, fun a => value_unlink l i a, ?_⟩
      · show pathOK (l.unlink i) s ((u' ++ [q]) ++ []) s
        rw [List.append_nil, pathOK_concat]
        refine ⟨?_, ?_, ?_⟩
        · refine pathOK_congr ?_ ?_ h1a
          · intro x hx
            refine hnexteq x fun he => ?_
            rw [he] at hx
            rcases hx with h | h
            · exact hqs h
            · exact hqu' h
          · intro x hx
            refine hpreveq x fun he => ?_
            rw [he] at hx
            rcases hx with h | h
            · exact hsu (List.mem_append_left _ h)
            · exact hqs h.symm
        · rw [hep]
        · rw [hen]
      · intro a ha
        rw [List.append_nil] at ha
        have haq : a ≠ q := fun he => ha (by simp [he])
        have has : a ≠ s := fun he => ha (by simp [he])
        exact hoth a haq has
    | cons w₀ w' =>
      have hadj_iw : adj l i w₀ := h2.1
      have hpw : pathOK l w₀ w' s := h2.2
      have hsw₀ : s ≠ w₀ := fun h => hsw (by simp [h])
      have hw₀w' : w₀ ∉ w' := (List.nodup_cons.1 hndw).1
      have hw₀b : w₀ < l.values.length := hbd w₀ (by simp)
      have hqw₀ : q ≠ w₀ := fun he => (hdis hqu) (by simp [he])
      have hul : l.unlink i = (l.updNext q w₀).updPrev w₀ q := by
        simp only [unlink]
        rw [hqi.2, hadj_iw.1]
      have hep : (l.unlink i).entry q = { l.entry q with next := w₀ } := by
        rw [hul]; exact entry_unlink_p hqw₀ hqb
      have hen : (l.unlink i).entry w₀ = { l.entry w₀ with prev := q } := by
        rw [hul]; exact entry_unlink_n hqw₀ hw₀b
      have hoth : ∀ a, a ≠ q → a ≠ w₀ → (l.unlink i).entry a = l.entry a := by
        intro a h1a' h2a
        rw [hul]; exact entry_unlink_other h1a' h2a
      have hnexteq : ∀ x, x ≠ q → ((l.unlink i).entry x).next = (l.entry x).next := by
        intro x hx
        by_cases hxw : x = w₀
        · subst hxw; rw [hen]
        · rw [hoth x hx hxw]
      have hpreveq : ∀ x, x ≠ w₀ → ((l.unlink i).entry x).prev = (l.entry x).prev := by
        intro x hx
        by_cases hxq : x = q
        · subst hxq; rw [hep]
        · rw [hoth x hxq hx]
      refine ⟨length_unlink l i, ?_, fun a => value_unlink l i a, ?_⟩
      · show pathOK (l.unlink i) s ((u' ++ [q]) ++ w₀ :: w') s
        have heq : (u' ++ [q]) ++ w₀ :: w' = u' ++ q :: (w₀ :: w') := by simp
        rw [heq, pathOK_append]
        refine ⟨?_, ⟨?_, ?_⟩, ?_⟩
        · refine pathOK_congr ?_ ?_ h1a
          · intro x hx
            refine hnexteq x fun he => ?_
            rw [he] at hx
            rcases hx with h | h
            · exact hqs h
            · exact hqu' h
          · intro x hx
            refine hpreveq x fun he => ?_
            rw [he] at hx
            rcases hx with h | h
            · exact (hdis (List.mem_append_left _ h)) (by simp)
            · exact hqw₀ h.symm
        · rw [hep]
        · rw [hen]
        · refine pathOK_congr ?_ ?_ hpw
          · intro x hx
            refine hnexteq x fun he => ?_
            rw [he] at hx
            rcases hx with h | h
            · exact hqw₀ h
            · exact (hdis hqu) (by simp [h])
          · intro x hx
            refine hpreveq x fun he => ?_
            rw [he] at hx
            rcases hx with h | h
            · exact hw₀w' h
            · exact hsw₀ h.symm
      · intro a ha
        have haq : a ≠ q := fun he => ha (by simp [he])
        have haw : a ≠ w₀ := fun he => ha (by simp [he])
        exact hoth a haq haw

end LRUList

end UnlinkSpec

section LinkAfterSpec

namespace LRUList

variable {T : Type}

/-- Effect of `link_after i s` on a doubly linked cycle `s :: rest`: the
detached cell `i` becomes the new head (right after the auxiliary cell `s`),
every payload is untouched, and cells outside the new cycle keep their
entries. -/
theorem link_after_spec (l : LRUList T) (s i : Nat) (rest : List Nat)
    (hnd : (s :: rest).Nodup)
    (hi : i ∉ s :: rest)
    (hbd : ∀ a ∈ s :: rest, a < l.values.length)
    (hib : i < l.values.length)
    (hC : cycleOK l s rest) :
    (l.link_after i s).values.length = l.values.length ∧
    cycleOK (l.link_after i s) s (i :: rest) ∧
    (∀ a, ((l.link_after i s).entry a).value = (l.entry a).value) ∧
    (∀ a, a ∉ i :: s :: rest → (l.link_after i s).entry a = l.entry a) := by
  have hsi : s ≠ i := fun he => hi (by simp [he])
  have hbs : s < l.values.length := hbd s (by simp)
  have hla : l.link_after i s =
      (((l.updPrev i s).updNext i (rest.headD s)).updNext s i).updPrev
        (rest.headD s) i := by
    simp only [link_after]
    rw [(pathOK_head_adj hC).1]
  cases rest with
  | nil =>
    have hib1 : i < (l.updPrev i s).values.length := by
      rw [length_updPrev]; exact hib
    have hbs2 : s < ((l.updPrev i s).updNext i s).values.length := by
      rw [length_updNext, length_updPrev]; exact hbs
    have hei : (l.link_after i s).entry i =
        { l.entry i with next := s, prev := s } := by
      rw [hla]
      simp only [List.headD]
      rw [entry_updPrev_ne _ (Ne.symm hsi), entry_updNext_ne _ (Ne.symm hsi),
        entry_updNext_self _ hib1, entry_updPrev_self _ hib]
    have hes : (l.link_after i s).entry s =
        { l.entry s with next := i, prev := i } := by
      rw [hla]
      simp only [List.headD]
      have hbs3 : s < (((l.updPrev i s).updNext i s).updNext s i).values.length := by
        rw [length_updNext]; exact hbs2
      rw [entry_updPrev_self _ hbs3, entry_updNext_self _ hbs2,
        entry_updNext_ne _ hsi, entry_updPrev_ne _ hsi]
    refine ⟨length_link_after l i s, ?_, fun a => value_link_after l i s a, ?_⟩
    · show pathOK (l.link_after i s) s [i] s
      refine ⟨⟨?_, ?_⟩, ?_, ?_⟩
      · rw [hes]
      · rw [hei]
      · rw [hei]
      · rw [hes]
    · intro a ha
      have hai : a ≠ i := fun he => ha (by simp [he])
      have has : a ≠ s := fun he => ha (by simp [he])
      rw [hla]
      simp only [List.headD]
      rw [entry_updPrev_ne _ has, entry_updNext_ne _ has,
        entry_updNext_ne _ hai, entry_updPrev_ne _ hai]
  | cons r₀ r' =>
    have hir : i ≠ r₀ := fun he => hi (by simp [he])
    have hsr : s ≠ r₀ := fun he => (List.nodup_cons.1 hnd).1 (by simp [he])
    have hrr : r₀ ∉ r' := by
      have := (List.nodup_cons.1 hnd).2
      exact (List.nodup_cons.1 this).1
    have hrb : r₀ < l.values.length := hbd r₀ (by simp)
    have hib1 : i < (l.updPrev i s).values.length := by
      rw [length_updPrev]; exact hib
    have hbs2 : s < ((l.updPrev i s).updNext i r₀).values.length := by
      rw [length_updNext, length_updPrev]; exact hbs
    have hrb3 : r₀ < (((l.updPrev i s).updNext i r₀).updNext s i).values.length := by
      rw [length_updNext, length_updNext, length_updPrev]; exact hrb
    have hei : (l.link_after i s).entry i =
        { l.entry i with next := r₀, prev := s } := by
      rw [hla]
      simp only [List.headD]
      rw [entry_updPrev_ne _ hir, entry_updNext_ne _ (Ne.symm hsi),
        entry_updNext_self _ hib1, entry_updPrev_self _ hib]
    have hes : (l.link_after i s).entry s =
        { l.entry s with next := i } := by
      rw [hla]
      simp only [List.headD]
      rw [entry_updPrev_ne _ hsr, entry_updNext_self _ hbs2,
        entry_updNext_ne _ hsi, entry_updPrev_ne _ hsi]
    have her : (l.link_after i s).entry r₀ =
        { l.entry r₀ with prev := i } := by
      rw [hla]
      simp only [List.headD]
      rw [entry_updPrev_self _ hrb3, entry_updNext_ne _ hsr.symm,
        entry_updNext_ne _ hir.symm, entry_updPrev_ne _ hir.symm]
    have hoth : ∀ a, a ≠ i → a ≠ s → a ≠ r₀ →
        (l.link_after i s).entry a = l.entry a := by
      intro a hai has har
      rw [hla]
      simp only [List.headD]
      rw [entry_updPrev_ne _ har, entry_updNext_ne _ has,
        entry_updNext_ne _ hai, entry_updPrev_ne _ hai]
    have hnexteq : ∀ x, x ≠ i → x ≠ s →
        ((l.link_after i s).entry x).next = (l.entry x).next := by
      intro x hxi hxs
      by_cases hxr : x = r₀
      · subst hxr; rw [her]
      · rw [hoth x hxi hxs hxr]
    have hpreveq : ∀ x, x ≠ i → x ≠ r₀ →
        ((l.link_after i s).entry x).prev = (l.entry x).prev := by
      intro x hxi hxr
      by_cases hxs : x = s
      · subst hxs; rw [hes]
      · rw [hoth x hxi hxs hxr]
    refine ⟨length_link_after l i s, ?_, fun a => value_link_after l i s a, ?_⟩
    · show pathOK (l.link_after i s) s (i :: r₀ :: r') s
      refine ⟨⟨?_, ?_⟩, ⟨?_, ?_⟩, ?_⟩
      · rw [hes]
      · rw [hei]
      · rw [hei]
      · rw [her]
      · refine pathOK_congr ?_ ?_ hC.2
        · intro x hx
          refine hnexteq x (fun he => ?_) (fun he => ?_)
          · rw [he] at hx
            rcases hx with h | h
            · exact hir h
            · exact hi (by simp [h])
          · rw [he] at hx
            rcases hx with h | h
            · exact hsr h
            · exact (List.nodup_cons.1 hnd).1 (by simp [h])
        · intro x hx
          refine hpreveq x (fun he => ?_) (fun he => ?_)
          · rw [he] at hx
            rcases hx with h | h
            · exact hi (by simp [h])
            · exact hsi h.symm
          · rw [he] at hx
            rcases hx with h | h
            · exact hrr h
            · exact hsr h.symm
    · intro a ha
      have hai : a ≠ i := fun he => ha (by simp [he])
      have has : a ≠ s := fun he => ha (by simp [he])
      have har : a ≠ r₀ := fun he => ha (by simp [he])
      exact hoth a hai has har

end LRUList

end LinkAfterSpec

section LRUInvariant

namespace LRUList

variable {T : Type}

theorem Inv.len2 {l : LRUList T} {occ free : List Nat} (hI : Inv l occ free) :
    2 ≤ l.values.length := by
  rw [hI.cover]; omega

theorem Inv.boundOcc {l : LRUList T} {occ free : List Nat} (hI : Inv l occ free) :
    ∀ a ∈ OCCUPIED :: occ, a < l.values.length := by
  intro a ha
  rcases List.mem_cons.1 ha with h | h
  · subst h
    have := hI.len2
    simp only [OCCUPIED]
    omega
  · exact hI.bound a (List.mem_append_left _ h)

theorem Inv.boundFree {l : LRUList T} {occ free : List Nat} (hI : Inv l occ free) :
    ∀ a ∈ FREE :: free, a < l.values.length := by
  intro a ha
  rcases List.mem_cons.1 ha with h | h
  · subst h
    have := hI.len2
    simp only [FREE]
    omega
  · exact hI.bound a (List.mem_append_right _ h)

theorem Inv.nodupOcc {l : LRUList T} {occ free : List Nat} (hI : Inv l occ free) :
    (OCCUPIED :: occ).Nodup :=
  (List.Sublist.cons₂ _ (List.sublist_append_left occ (FREE :: free))).nodup hI.nodup

theorem Inv.nodupFree {l : LRUList T} {occ free : List Nat} (hI : Inv l occ free) :
    (FREE :: free).Nodup := by
  have h1 : (FREE :: free).Sublist (OCCUPIED :: (occ ++ FREE :: free)) :=
    (List.sublist_append_right occ (FREE :: free)).trans
      (List.sublist_cons_self _ _)
  exact h1.nodup hI.nodup

theorem Inv.disjOccFree {l : LRUList T} {occ free : List Nat}
    (hI : Inv l occ free) :
    ∀ a ∈ OCCUPIED :: occ, a ∉ FREE :: free := by
  intro a ha hb
  have hnd := hI.nodup
  rw [List.nodup_cons] at hnd
  rcases List.mem_cons.1 ha with h | h
  · exact hnd.1 (h ▸ List.mem_append_right _ hb)
  · have := hnd.2
    rw [List.nodup_append] at this
    exact this.2.2 h hb

/-- Payload writes never disturb the link structure. -/
theorem pathOK_updValue {l : LRUList T} (i : Nat) (v : Option T) {a b : Nat}
    {u : List Nat} (h : pathOK l a u b) : pathOK (l.updValue i v) a u b :=
  pathOK_congr (fun x _ => links_updValue_next l i v x)
    (fun x _ => links_updValue_prev l i v x) h

theorem entry_append_ne {vals : List (ListEntry T)} {e : ListEntry T} {a : Nat}
    (h : a ≠ vals.length) :
    (LRUList.mk (vals ++ [e])).entry a = (LRUList.mk vals).entry a := by
  rcases Nat.lt_or_ge a vals.length with hlt | hge
  · simp [entry, List.getD_eq_getElem?_getD, List.getElem?_append, hlt]
  · have h1 : (vals ++ [e])[a]? = none := by
      apply List.getElem?_eq_none
      simp only [List.length_append, List.length_singleton]
      omega
    have h2 : vals[a]? = none := List.getElem?_eq_none hge
    simp [entry, List.getD_eq_getElem?_getD, h1, h2]

theorem entry_append_len {vals : List (ListEntry T)} {e : ListEntry T} :
    (LRUList.mk (vals ++ [e])).entry vals.length = e := by
  simp [entry, List.getD_eq_getElem?_getD, List.getElem?_concat_length]

/-- The freshly constructed two-cell arena satisfies the invariant with both
cycles empty. -/
theorem inv_init : Inv (LRUList.mk ([⟨none, 0, 0⟩, ⟨none, 1, 1⟩] : List (ListEntry T))) [] [] := by
  refine ⟨by simp [OCCUPIED, FREE], by simp, by simp, ?_, ?_, by simp⟩
  · show pathOK _ OCCUPIED [] OCCUPIED
    constructor <;> simp [entry, OCCUPIED, List.getD]
  · show pathOK _ FREE [] FREE
    constructor <;> simp [entry, FREE, List.getD]

theorem inv_with_capacity (n : Nat) :
    Inv (with_capacity n : LRUList T) [] [] := inv_init

theorem inv_clear (l : LRUList T) : Inv l.clear [] [] := inv_init

/-- The sentinel cell that heads the occupied cycle points back to the last
(least recently used) occupied cell. -/
theorem back_eq {l : LRUList T} {occ free : List Nat} (hI : Inv l occ free) :
    l.back = (OCCUPIED :: occ).getLast (List.cons_ne_nil _ _) :=
  (pathOK_last_adj hI.occOK).2

end LRUList

end LRUInvariant

section LRUOps

namespace LRUList

variable {T : Type}

/-- `move_to_front` on an occupied cell `i` rotates `i` to the head of the
occupied cycle and changes nothing else. -/
theorem move_to_front_inv {l : LRUList T} {occ free u w : List Nat} {i : Nat}
    (hI : Inv l occ free) (hocc : occ = u ++ i :: w) :
    Inv (l.move_to_front i) (i :: (u ++ w)) free ∧
    (l.move_to_front i).values.length = l.values.length ∧
    (∀ a, ((l.move_to_front i).entry a).value = (l.entry a).value) := by
  subst hocc
  have hnd1 : (OCCUPIED :: (u ++ i :: w)).Nodup := hI.nodupOcc
  have hbd1 : ∀ a ∈ OCCUPIED :: (u ++ i :: w), a < l.values.length := hI.boundOcc
  obtain ⟨hlen1, hcyc1, hval1, hout1⟩ :=
    unlink_spec l OCCUPIED i u w hnd1 hbd1 hI.occOK
  have hnd2 : (OCCUPIED :: (u ++ w)).Nodup := by
    have hsub : (OCCUPIED :: (u ++ w)).Sublist (OCCUPIED :: (u ++ i :: w)) :=
      List.Sublist.cons₂ _ (List.Sublist.append_left (List.sublist_cons_self i w) u)
    exact hsub.nodup hnd1
  have hi2 : i ∉ OCCUPIED :: (u ++ w) := by
    intro hmem
    rcases List.mem_cons.1 hmem with h | h
    · rw [List.nodup_cons] at hnd1
      exact hnd1.1 (h ▸ (by simp : i ∈ u ++ i :: w))
    · have := hnd1
      rw [List.nodup_cons] at this
      have hnd' := this.2
      rcases List.mem_append.1 h with h1 | h1
      · rw [List.nodup_append] at hnd'
        exact hnd'.2.2 h1 (by simp)
      · rw [List.nodup_append] at hnd'
        have := hnd'.2.1
        rw [List.nodup_cons] at this
        exact this.1 h1
  have hbd2 : ∀ a ∈ OCCUPIED :: (u ++ w), a < (l.unlink i).values.length := by
    intro a ha
    rw [hlen1]
    apply hbd1
    rcases List.mem_cons.1 ha with h | h
    · simp [h]
    · rcases List.mem_append.1 h with h1 | h1
      · simp [h1]
      · simp [h1]
  have hib : i < (l.unlink i).values.length := by
    rw [hlen1]
    exact hbd1 i (by simp)
  obtain ⟨hlen2, hcyc2, hval2, hout2⟩ :=
    link_after_spec (l.unlink i) OCCUPIED i (u ++ w) hnd2 hi2 hbd2 hib hcyc1
  have hmtf : l.move_to_front i = (l.unlink i).link_after i OCCUPIED := rfl
  have hlen : (l.move_to_front i).values.length = l.values.length := by
    rw [hmtf, hlen2, hlen1]
  have hval : ∀ a, ((l.move_to_front i).entry a).value = (l.entry a).value := by
    intro a
    rw [hmtf, hval2, hval1]
  have hperm : (OCCUPIED :: ((i :: (u ++ w)) ++ FREE :: free)).Perm
      (OCCUPIED :: ((u ++ i :: w) ++ FREE :: free)) := by
    apply List.Perm.cons
    apply List.Perm.append_right
    exact List.perm_middle.symm
  have hfreeside : ∀ a ∈ FREE :: free, (l.move_to_front i).entry a = l.entry a := by
    intro a ha
    have h1 : a ∉ i :: OCCUPIED :: (u ++ w) := by
      intro hmem
      have hdisj := hI.disjOccFree
      rcases List.mem_cons.1 hmem with h | h
      · exact hdisj a (by simp [h]) ha
      · rcases List.mem_cons.1 h with h' | h'
        · exact hdisj a (by simp [h']) ha
        · rcases List.mem_append.1 h' with h1 | h1
          · exact hdisj a (by simp [List.mem_append_left, h1]) ha
          · exact hdisj a (by simp [h1]) ha
    have h2 : a ∉ OCCUPIED :: (u ++ w) := fun hm => h1 (List.mem_cons_of_mem _ hm)
    rw [hmtf, hout2 a h1, hout1 a h2]
  refine ⟨⟨hperm.symm.nodup hI.nodup, ?_, ?_, ?_, ?_, ?_⟩, hlen, hval⟩
  · intro a ha
    rw [hlen]
    have ha' : a ∈ (u ++ i :: w) ++ free := by
      rcases List.mem_append.1 ha with h | h
      · rcases List.mem_cons.1 h with h1 | h1
        · exact List.mem_append_left _ (by simp [h1])
        · rcases List.mem_append.1 h1 with h2 | h2
          · exact List.mem_append_left _ (by simp [h2])
          · exact List.mem_append_left _ (by simp [h2])
      · exact List.mem_append_right _ h
    exact hI.bound a ha'
  · rw [hlen, hI.cover]
    simp only [List.length_append, List.length_cons]
    omega
  · exact hcyc2
  · refine pathOK_entry_congr ?_ hI.freeOK
    intro x hx
    apply hfreeside
    rcases List.mem_cons.1 hx with h | h
    · simp [h]
    · rcases List.mem_append.1 h with h1 | h1
      · simp [h1]
      · simp at h1
        simp [h1]
  · intro j hj
    rw [hval j]
    apply hI.occVal
    rcases List.mem_cons.1 hj with h | h
    · simp [h]
    · rcases List.mem_append.1 h with h1 | h1
      · simp [h1]
      · simp [h1]

end LRUList

end LRUOps

section LRUOps2

namespace LRUList

variable {T : Type}

/-- `remove` on an occupied cell `i` succeeds, returns its payload, moves
the cell to the head of the free cycle and clears its payload. -/
theorem remove_inv {l : LRUList T} {occ free u w : List Nat} {i : Nat}
    (hI : Inv l occ free) (hocc : occ = u ++ i :: w) :
    ∃ t l', l.remove i = some (t, l') ∧ (l.entry i).value = some t ∧
      Inv l' (u ++ w) (i :: free) ∧
      l'.values.length = l.values.length ∧
      (∀ a, a ≠ i → (l'.entry a).value = (l.entry a).value) := by
  subst hocc
  have hnd1 : (OCCUPIED :: (u ++ i :: w)).Nodup := hI.nodupOcc
  have hbd1 : ∀ a ∈ OCCUPIED :: (u ++ i :: w), a < l.values.length := hI.boundOcc
  obtain ⟨hlen1, hcyc1, hval1, hout1⟩ :=
    unlink_spec l OCCUPIED i u w hnd1 hbd1 hI.occOK
  have himem : i ∈ OCCUPIED :: (u ++ i :: w) := by simp
  have hfreeout : ∀ a ∈ FREE :: free, a ∉ OCCUPIED :: (u ++ i :: w) := by
    intro a ha hb
    exact hI.disjOccFree a hb ha
  have hfree1 : cycleOK (l.unlink i) FREE free := by
    refine pathOK_entry_congr ?_ hI.freeOK
    intro x hx
    have hxm : x ∈ FREE :: free := by
      rcases List.mem_cons.1 hx with h | h
      · simp [h]
      · rcases List.mem_append.1 h with h1 | h1
        · simp [h1]
        · simp at h1
          simp [h1]
    refine hout1 x ?_
    intro hmem
    refine hfreeout x hxm ?_
    rcases List.mem_cons.1 hmem with h | h
    · simp [h]
    · rcases List.mem_append.1 h with h1 | h1
      · simp [h1]
      · simp [h1]
  have hi2 : i ∉ FREE :: free := fun h => hfreeout i h himem
  have hbd2 : ∀ a ∈ FREE :: free, a < (l.unlink i).values.length := by
    intro a ha
    rw [hlen1]
    exact hI.boundFree a ha
  have hib : i < (l.unlink i).values.length := by
    rw [hlen1]
    exact hbd1 i himem
  obtain ⟨hlen2, hcyc2, hval2, hout2⟩ :=
    link_after_spec (l.unlink i) FREE i free hI.nodupFree hi2 hbd2 hib hfree1
  have hocc2 : cycleOK ((l.unlink i).link_after i FREE) OCCUPIED (u ++ w) := by
    refine pathOK_entry_congr ?_ hcyc1
    intro x hx
    have hxm : x ∈ OCCUPIED :: (u ++ w) := by
      rcases List.mem_cons.1 hx with h | h
      · simp [h]
      · rcases List.mem_append.1 h with h1 | h1
        · simp [h1]
        · simp at h1
          simp [h1]
    refine hout2 x ?_
    intro hmem
    rcases List.mem_cons.1 hmem with h | h
    · subst h
      rcases List.mem_cons.1 hxm with h1 | h1
      · rw [List.nodup_cons] at hnd1
        exact hnd1.1 (h1 ▸ (by simp : x ∈ u ++ x :: w))
      · have := hnd1
        rw [List.nodup_cons] at this
        have hnd' := this.2
        rw [List.nodup_append] at hnd'
        rcases List.mem_append.1 h1 with h2 | h2
        · exact hnd'.2.2 h2 (by simp)
        · have := hnd'.2.1
          rw [List.nodup_cons] at this
          exact this.1 h2
    · exact hfreeout x h (by
        rcases List.mem_cons.1 hxm with h1 | h1
        · simp [h1]
        · rcases List.mem_append.1 h1 with h2 | h2
          · simp [h2]
          · simp [h2])
  have hvi : ((((l.unlink i).link_after i FREE)).entry i).value = (l.entry i).value := by
    rw [hval2, hval1]
  obtain ⟨t, ht⟩ := Option.isSome_iff_exists.1 (hI.occVal i (by simp))
  have hvi2 : ((((l.unlink i).link_after i FREE)).entry i).value = some t := by
    rw [hvi, ht]
  have hremeq : l.remove i =
      some (t, ((l.unlink i).link_after i FREE).updValue i none) := by
    simp only [remove]
    rw [hvi2]
  have hib2 : i < (((l.unlink i).link_after i FREE)).values.length := by
    rw [hlen2]
    exact hib
  refine ⟨t, _, hremeq, ht, ?_, ?_, ?_⟩
  · -- the invariant for the new cycles
    have e1 : (u ++ i :: w) ++ FREE :: free = u ++ i :: (w ++ FREE :: free) := by
      simp
    have e2 : (u ++ w) ++ FREE :: i :: free = ((u ++ w) ++ [FREE]) ++ i :: free := by
      simp
    have e3 : ((u ++ w) ++ [FREE]) ++ free = (u ++ w) ++ FREE :: free := by
      simp
    have hp1 : (u ++ i :: (w ++ FREE :: free)).Perm (i :: (u ++ (w ++ FREE :: free))) :=
      List.perm_middle
    have hp2 : ((((u ++ w) ++ [FREE]) ++ i :: free)).Perm
        (i :: (((u ++ w) ++ [FREE]) ++ free)) := List.perm_middle
    have e4 : u ++ (w ++ FREE :: free) = (u ++ w) ++ FREE :: free := by simp
    have hperm : ((u ++ i :: w) ++ FREE :: free).Perm ((u ++ w) ++ FREE :: i :: free) := by
      rw [e1, e2]
      refine hp1.trans ?_
      refine List.Perm.trans ?_ hp2.symm
      rw [e3, e4]
    have hnodup' : (OCCUPIED :: ((u ++ w) ++ FREE :: i :: free)).Nodup :=
      (hperm.cons OCCUPIED).nodup hI.nodup
    have hlen' : (((l.unlink i).link_after i FREE).updValue i none).values.length =
        l.values.length := by
      rw [length_updValue, hlen2, hlen1]
    refine ⟨hnodup', ?_, ?_, ?_, ?_, ?_⟩
    · intro a ha
      rw [hlen']
      rcases List.mem_append.1 ha with h | h
      · exact hI.bound a (List.mem_append_left _ (by
          rcases List.mem_append.1 h with h1 | h1
          · simp [h1]
          · simp [h1]))
      · rcases List.mem_cons.1 h with h1 | h1
        · exact hI.bound a (List.mem_append_left _ (by simp [h1]))
        · exact hI.bound a (List.mem_append_right _ h1)
    · rw [hlen', hI.cover]
      simp only [List.length_append, List.length_cons]
      omega
    · exact pathOK_updValue i none hocc2
    · exact pathOK_updValue i none hcyc2
    · intro j hj
      have hji : j ≠ i := by
        intro he
        subst he
        rw [List.nodup_cons] at hnd1
        have hnd' := hnd1.2
        rw [List.nodup_append] at hnd'
        rcases List.mem_append.1 hj with h1 | h1
        · exact hnd'.2.2 h1 (by simp)
        · have := hnd'.2.1
          rw [List.nodup_cons] at this
          exact this.1 h1
      rw [entry_updValue_ne _ hji, hval2, hval1]
      apply hI.occVal
      rcases List.mem_append.1 hj with h1 | h1
      · simp [h1]
      · simp [h1]
  · rw [length_updValue, hlen2, hlen1]
  · intro a hai
    rw [entry_updValue_ne _ hai, hval2, hval1]

end LRUList

end LRUOps2

section LRUOps3

namespace LRUList

variable {T : Type}

/-- `pop_back` on a nonempty occupied cycle removes exactly the last
(least recently used) occupied cell. -/
theorem pop_back_inv {l : LRUList T} {occ free u : List Nat} {q : Nat}
    (hI : Inv l occ free) (hocc : occ = u ++ [q]) :
    ∃ t l', l.pop_back = some (t, l') ∧ (l.entry q).value = some t ∧
      Inv l' u (q :: free) ∧
      l'.values.length = l.values.length ∧
      (∀ a, a ≠ q → (l'.entry a).value = (l.entry a).value) := by
  have hback : l.back = q := by
    rw [back_eq hI, hocc]
    simp
  obtain ⟨t, l', hrem, hval, hInv, hlen, hothers⟩ :=
    remove_inv hI (by rw [hocc] : occ = u ++ q :: [])
  refine ⟨t, l', ?_, hval, ?_, hlen, hothers⟩
  · rw [pop_back, hback]
    exact hrem
  · rw [List.append_nil] at hInv
    exact hInv

end LRUList

end LRUOps3


section LRUOps4

namespace LRUList

variable {T : Type}

/-- `push_front` obtains a cell (growing the arena only when the free cycle
is empty), stores the given payload in it, and links it as the new head of
the occupied cycle.  The conclusions are the fields of
`Inv l' (idx :: occ) fr'` except that the payload of `idx` is the pushed
value (which may be `none`). -/
theorem push_front_inv {l : LRUList T} {occ free : List Nat} (hI : Inv l occ free)
    (v : Option T) :
    ∃ idx l' fr', l.push_front v = (idx, l') ∧
      idx < l'.values.length ∧
      (OCCUPIED :: ((idx :: occ) ++ FREE :: fr')).Nodup ∧
      (∀ a ∈ (idx :: occ) ++ fr', a < l'.values.length) ∧
      l'.values.length = (idx :: occ).length + fr'.length + 2 ∧
      cycleOK l' OCCUPIED (idx :: occ) ∧
      cycleOK l' FREE fr' ∧
      (l'.entry idx).value = v ∧
      (∀ a, a ≠ idx → (l'.entry a).value = (l.entry a).value) := by
  have hN2 := hI.len2
  have hocc0 : (0 : Nat) ∉ occ := by
    intro h
    exact hI.disjOccFree 0 (by simp [h]) (by simp [FREE])
  cases free with
  | nil =>
    have hcond : (l.entry FREE).next = FREE := hI.freeOK.1
    have hlenmk : ((LRUList.mk (l.values ++ [(⟨none, FREE, FREE⟩ : ListEntry T)])).values.length)
        = l.values.length + 1 := by simp
    have hfreelt : FREE < (LRUList.mk (l.values ++ [(⟨none, FREE, FREE⟩ : ListEntry T)])).values.length := by
      rw [hlenmk]
      simp only [FREE]
      omega
    have hidx : (((LRUList.mk (l.values ++ [(⟨none, FREE, FREE⟩ : ListEntry T)])).updNext
        FREE l.values.length).entry FREE).next = l.values.length := by
      rw [entry_updNext_self _ hfreelt]
    have hlensub : (LRUList.mk (l.values ++ [(⟨none, FREE, FREE⟩ : ListEntry T)])).values.length - 1
        = l.values.length := by
      rw [hlenmk]
      omega
    have hpf : l.push_front v =
        (l.values.length,
          ((((LRUList.mk (l.values ++ [(⟨none, FREE, FREE⟩ : ListEntry T)])).updNext
              FREE l.values.length).updValue l.values.length v).unlink
            l.values.length).link_after l.values.length OCCUPIED) := by
      simp only [push_front]
      rw [if_pos hcond, hlensub, hidx]
    have hN0 : l.values.length ≠ FREE := by
      simp only [FREE]
      omega
    have hlenM : (((LRUList.mk (l.values ++ [(⟨none, FREE, FREE⟩ : ListEntry T)])).updNext
        FREE l.values.length)).values.length = l.values.length + 1 := by
      rw [length_updNext, hlenmk]
    have hNb2 : l.values.length <
        (((LRUList.mk (l.values ++ [(⟨none, FREE, FREE⟩ : ListEntry T)])).updNext
          FREE l.values.length)).values.length := by
      rw [hlenM]; omega
    have hentryL2_N : ((((LRUList.mk (l.values ++ [(⟨none, FREE, FREE⟩ : ListEntry T)])).updNext
        FREE l.values.length).updValue l.values.length v).entry l.values.length)
        = ⟨v, FREE, FREE⟩ := by
      rw [entry_updValue_self _ hNb2, entry_updNext_ne _ hN0, entry_append_len]
    have hunl : ((((LRUList.mk (l.values ++ [(⟨none, FREE, FREE⟩ : ListEntry T)])).updNext
        FREE l.values.length).updValue l.values.length v).unlink l.values.length)
        = ((((LRUList.mk (l.values ++ [(⟨none, FREE, FREE⟩ : ListEntry T)])).updNext
        FREE l.values.length).updValue l.values.length v).updNext FREE FREE).updPrev
          FREE FREE := by
      simp only [unlink]
      rw [hentryL2_N]
    have hlenL2 : ((((LRUList.mk (l.values ++ [(⟨none, FREE, FREE⟩ : ListEntry T)])).updNext
        FREE l.values.length).updValue l.values.length v)).values.length
        = l.values.length + 1 := by
      rw [length_updValue, hlenM]
    have hlen3 : (((((LRUList.mk (l.values ++ [(⟨none, FREE, FREE⟩ : ListEntry T)])).updNext
        FREE l.values.length).updValue l.values.length v).unlink
        l.values.length)).values.length = l.values.length + 1 := by
      rw [length_unlink, hlenL2]
    have heq3 : ∀ a, a ≠ FREE → a ≠ l.values.length →
        (((((LRUList.mk (l.values ++ [(⟨none, FREE, FREE⟩ : ListEntry T)])).updNext
          FREE l.values.length).updValue l.values.length v).unlink
          l.values.length)).entry a = l.entry a := by
      intro a ha0 haN
      rw [hunl, entry_updPrev_ne _ ha0, entry_updNext_ne _ ha0,
        entry_updValue_ne _ haN, entry_updNext_ne _ ha0, entry_append_ne haN]
    have h0b : FREE < ((((LRUList.mk (l.values ++ [(⟨none, FREE, FREE⟩ : ListEntry T)])).updNext
        FREE l.values.length).updValue l.values.length v)).values.length := by
      rw [hlenL2]
      simp only [FREE]
      omega
    have h0b2 : FREE < (((((LRUList.mk (l.values ++ [(⟨none, FREE, FREE⟩ : ListEntry T)])).updNext
        FREE l.values.length).updValue l.values.length v)).updNext FREE FREE).values.length := by
      rw [length_updNext, hlenL2]
      simp only [FREE]
      omega
    have hentry3_0 : (((((LRUList.mk (l.values ++ [(⟨none, FREE, FREE⟩ : ListEntry T)])).updNext
        FREE l.values.length).updValue l.values.length v).unlink
        l.values.length)).entry FREE =
        { (((LRUList.mk (l.values ++ [(⟨none, FREE, FREE⟩ : ListEntry T)])).updNext
            FREE l.values.length).updValue l.values.length v).entry FREE
          with next := FREE, prev := FREE } := by
      rw [hunl, entry_updPrev_self _ h0b2, entry_updNext_self _ h0b]
    have hcyc3 : cycleOK (((((LRUList.mk (l.values ++ [(⟨none, FREE, FREE⟩ : ListEntry T)])).updNext
        FREE l.values.length).updValue l.values.length v).unlink
        l.values.length)) OCCUPIED occ := by
      refine pathOK_entry_congr ?_ hI.occOK
      intro x hx
      have hxlt : x < l.values.length := by
        rcases List.mem_cons.1 hx with h | h
        · subst h
          exact hI.boundOcc OCCUPIED (by simp)
        · rcases List.mem_append.1 h with h1 | h1
          · exact hI.bound x (List.mem_append_left _ h1)
          · simp at h1
            subst h1
            exact hI.boundOcc OCCUPIED (by simp)
      have hx0 : x ≠ FREE := by
        rcases List.mem_cons.1 hx with h | h
        · subst h
          simp [OCCUPIED, FREE]
        · rcases List.mem_append.1 h with h1 | h1
          · intro he
            simp only [FREE] at he
            exact hocc0 (he ▸ h1)
          · simp at h1
            subst h1
            simp [OCCUPIED, FREE]
      exact heq3 x hx0 (by omega)
    have hnd4 : (OCCUPIED :: occ).Nodup := hI.nodupOcc
    have hi4 : l.values.length ∉ OCCUPIED :: occ := by
      intro h
      have hlt : l.values.length < l.values.length := by
        rcases List.mem_cons.1 h with h1 | h1
        · simp only [OCCUPIED] at h1
          omega
        · exact hI.bound _ (List.mem_append_left _ h1)
      omega
    have hbd4 : ∀ a ∈ OCCUPIED :: occ,
        a < (((((LRUList.mk (l.values ++ [(⟨none, FREE, FREE⟩ : ListEntry T)])).updNext
        FREE l.values.length).updValue l.values.length v).unlink
        l.values.length)).values.length := by
      intro a ha
      rw [hlen3]
      have : a < l.values.length := hI.boundOcc a ha
      omega
    have hib4 : l.values.length <
        (((((LRUList.mk (l.values ++ [(⟨none, FREE, FREE⟩ : ListEntry T)])).updNext
        FREE l.values.length).updValue l.values.length v).unlink
        l.values.length)).values.length := by
      rw [hlen3]; omega
    obtain ⟨hlen5, hcyc5, hval5, hout5⟩ :=
      link_after_spec _ OCCUPIED l.values.length occ hnd4 hi4 hbd4 hib4 hcyc3
    have hc := hI.cover
    refine ⟨l.values.length, _, [], hpf, ?_, ?_, ?_, ?_, hcyc5, ?_, ?_, ?_⟩
    · rw [hlen5, hlen3]; omega
    · have hmemlt : ∀ x ∈ OCCUPIED :: (occ ++ [FREE]), x < l.values.length := by
        intro x hx
        rcases List.mem_cons.1 hx with h | h
        · subst h
          simp only [OCCUPIED]
          omega
        · rcases List.mem_append.1 h with h1 | h1
          · exact hI.bound x (List.mem_append_left _ h1)
          · simp at h1
            subst h1
            simp only [FREE]
            omega
      have hN1 : (l.values.length :: (OCCUPIED :: (occ ++ [FREE]))).Nodup := by
        rw [List.nodup_cons]
        exact ⟨fun h => absurd (hmemlt _ h) (lt_irrefl _), hI.nodup⟩
      exact (List.Perm.swap l.values.length OCCUPIED (occ ++ [FREE])).symm.nodup hN1
    · intro a ha
      rw [hlen5, hlen3]
      rcases List.mem_append.1 ha with h | h
      · rcases List.mem_cons.1 h with h1 | h1
        · omega
        · have := hI.bound a (List.mem_append_left _ h1)
          omega
      · simp at h
    · rw [hlen5, hlen3]
      simp only [List.length_cons, List.length_nil, List.length_append,
        List.length_nil] at hc ⊢
      omega
    · show pathOK _ FREE [] FREE
      have hfout : FREE ∉ l.values.length :: OCCUPIED :: occ := by
        intro h
        rcases List.mem_cons.1 h with h1 | h1
        · simp only [FREE] at h1
          omega
        · rcases List.mem_cons.1 h1 with h2 | h2
          · simp [OCCUPIED, FREE] at h2
          · exact hocc0 (by simpa [FREE] using h2)
      have he0 := hout5 FREE hfout
      have hv0 : FREE ≠ l.values.length := hN0.symm
      constructor
      · rw [he0, hentry3_0]
      · rw [he0, hentry3_0]
    · rw [hval5]
      have hsame : (((((LRUList.mk (l.values ++ [(⟨none, FREE, FREE⟩ : ListEntry T)])).updNext
          FREE l.values.length).updValue l.values.length v).unlink
          l.values.length)).entry l.values.length =
          ((((LRUList.mk (l.values ++ [(⟨none, FREE, FREE⟩ : ListEntry T)])).updNext
          FREE l.values.length).updValue l.values.length v)).entry l.values.length := by
        rw [hunl, entry_updPrev_ne _ hN0, entry_updNext_ne _ hN0]
      rw [hsame, hentryL2_N]
    · intro a haN
      rw [hval5, value_unlink, entry_updValue_ne _ haN, value_updNext,
        entry_append_ne haN]
  | cons f fs =>
    have hndf := hI.nodupFree
    have hadj0f : adj l FREE f := hI.freeOK.1
    have hf0 : f ≠ FREE := by
      intro he
      have := (List.nodup_cons.1 hndf).1
      rw [he] at this
      exact this (by simp)
    have hffs : f ∉ fs := by
      have := (List.nodup_cons.1 hndf).2
      exact (List.nodup_cons.1 this).1
    have hcond : ¬ ((l.entry FREE).next = FREE) := by
      rw [hadj0f.1]
      exact hf0
    have hpf : l.push_front v = (f, ((l.updValue f v).unlink f).link_after f OCCUPIED) := by
      simp only [push_front]
      rw [if_neg hcond, hadj0f.1]
    have hfb : f < l.values.length := hI.boundFree f (by simp)
    have hfree2 : cycleOK (l.updValue f v) FREE (f :: fs) := pathOK_updValue f v hI.freeOK
    have hnd2 : (FREE :: ([] ++ f :: fs)).Nodup := by simpa using hndf
    have hbd2 : ∀ a ∈ FREE :: ([] ++ f :: fs), a < (l.updValue f v).values.length := by
      intro a ha
      rw [length_updValue]
      exact hI.boundFree a (by simpa using ha)
    obtain ⟨hlen3, hcyc3, hval3, hout3⟩ :=
      unlink_spec (l.updValue f v) FREE f [] fs hnd2 hbd2 hfree2
    have hdisjf : ∀ x ∈ OCCUPIED :: occ, x ∉ FREE :: f :: fs := hI.disjOccFree
    have hoccpre : cycleOK ((l.updValue f v).unlink f) OCCUPIED occ := by
      refine pathOK_entry_congr ?_ hI.occOK
      intro x hx
      have hxocc : x ∈ OCCUPIED :: occ := by
        rcases List.mem_cons.1 hx with h | h
        · simp [h]
        · rcases List.mem_append.1 h with h1 | h1
          · simp [h1]
          · simp at h1
            simp [h1]
      have hxf : x ≠ f := fun he => hdisjf x hxocc (by simp [he])
      have hx0fs : x ∉ FREE :: ([] ++ fs) := by
        intro hmem
        refine hdisjf x hxocc ?_
        rcases List.mem_cons.1 hmem with h | h
        · simp [h]
        · simp at h
          simp [h]
      rw [hout3 x hx0fs, entry_updValue_ne _ hxf]
    have hnd4 : (OCCUPIED :: occ).Nodup := hI.nodupOcc
    have hf4 : f ∉ OCCUPIED :: occ := fun h => hdisjf f h (by simp)
    have hbd4 : ∀ a ∈ OCCUPIED :: occ, a < ((l.updValue f v).unlink f).values.length := by
      intro a ha
      rw [hlen3, length_updValue]
      exact hI.boundOcc a ha
    have hib4 : f < ((l.updValue f v).unlink f).values.length := by
      rw [hlen3, length_updValue]
      exact hfb
    obtain ⟨hlen5, hcyc5, hval5, hout5⟩ :=
      link_after_spec _ OCCUPIED f occ hnd4 hf4 hbd4 hib4 hoccpre
    have hc := hI.cover
    refine ⟨f, _, fs, hpf, ?_, ?_, ?_, ?_, hcyc5, ?_, ?_, ?_⟩
    · rw [hlen5, hlen3, length_updValue]
      exact hfb
    · have e1 : occ ++ FREE :: f :: fs = (occ ++ [FREE]) ++ f :: fs := by simp
      have e2 : (f :: occ) ++ FREE :: fs = f :: (occ ++ FREE :: fs) := by simp
      have hp : ((occ ++ [FREE]) ++ f :: fs).Perm (f :: ((occ ++ [FREE]) ++ fs)) :=
        List.perm_middle
      have e3 : (occ ++ [FREE]) ++ fs = occ ++ FREE :: fs := by simp
      have hperm : (occ ++ FREE :: f :: fs).Perm ((f :: occ) ++ FREE :: fs) := by
        rw [e1, e2]
        exact e3 ▸ hp
      exact (hperm.cons OCCUPIED).nodup hI.nodup
    · intro a ha
      rw [hlen5, hlen3, length_updValue]
      rcases List.mem_append.1 ha with h | h
      · rcases List.mem_cons.1 h with h1 | h1
        · subst h1
          exact hfb
        · exact hI.bound a (List.mem_append_left _ h1)
      · exact hI.boundFree a (by simp [h])
    · rw [hlen5, hlen3, length_updValue]
      simp only [List.length_cons, List.length_append] at hc ⊢
      omega
    · have hfs3 : cycleOK ((l.updValue f v).unlink f) FREE fs := by
        simpa using hcyc3
      refine pathOK_entry_congr ?_ hfs3
      intro x hx
      have hxm : x ∈ FREE :: fs := by
        rcases List.mem_cons.1 hx with h | h
        · simp [h]
        · rcases List.mem_append.1 h with h1 | h1
          · simp [h1]
          · simp at h1
            simp [h1]
      refine hout5 x ?_
      intro hmem
      rcases List.mem_cons.1 hmem with h | h
      · rcases List.mem_cons.1 hxm with h1 | h1
        · rw [h] at h1
          exact hf0 h1
        · rw [h] at h1
          exact hffs h1
      · refine hdisjf x h ?_
        rcases List.mem_cons.1 hxm with h1 | h1
        · simp [h1]
        · simp [h1]
    · rw [hval5, value_unlink, entry_updValue_self _ hfb]
    · intro a haf
      rw [hval5, value_unlink, entry_updValue_ne _ haf]

end LRUList

end LRUOps4

section LRUOps5

namespace LRUList

variable {T : Type}

theorem iterAux_spec (l : LRUList T) :
    ∀ (c : List Nat) (a fuel : Nat),
      pathOK l a c OCCUPIED → OCCUPIED ∉ c →
      (∀ x ∈ c, ((l.entry x).value).isSome) →
      c.length + 1 ≤ fuel →
      c.map (fun i => (l.entry i).value) = (l.iterAux fuel a).map some := by
  intro c
  induction c with
  | nil =>
    intro a fuel hC hOC hval hfuel
    cases fuel with
    | zero => omega
    | succ f =>
      simp only [iterAux]
      rw [hC.1]
      simp
  | cons x xs ih =>
    intro a fuel hC hOC hval hfuel
    cases fuel with
    | zero => simp at hfuel
    | succ f =>
      have hnx : (l.entry a).next = x := hC.1.1
      have hxOC : ¬ (x = OCCUPIED) := fun he => hOC (by simp [he])
      obtain ⟨vx, hvx⟩ := Option.isSome_iff_exists.1 (hval x (by simp))
      simp only [iterAux]
      rw [hnx, if_neg hxOC, hvx]
      simp only [List.map_cons]
      rw [hvx]
      congr 1
      exact ih x f hC.2 (fun h => hOC (by simp [h]))
        (fun y hy => hval y (by simp [hy])) (by simpa using hfuel)

/-- Under the invariant, `iter` lists exactly the payloads of the occupied
cycle, most recently used first. -/
theorem iter_inv {l : LRUList T} {occ free : List Nat} (hI : Inv l occ free) :
    occ.map (fun i => (l.entry i).value) = l.iter.map some := by
  have hOC : OCCUPIED ∉ occ := (List.nodup_cons.1 hI.nodupOcc).1
  have hfuel : occ.length + 1 ≤ l.values.length := by
    have := hI.cover
    omega
  exact iterAux_spec l occ OCCUPIED l.values.length hI.occOK hOC hI.occVal hfuel

theorem iter_eq_of_inv {l : LRUList T} {occ free : List Nat} (hI : Inv l occ free)
    {a : List T} (h : occ.map (fun i => (l.entry i).value) = a.map some) :
    l.iter = a := by
  have h2 : l.iter.map some = a.map some := (iter_inv hI).symm.trans h
  exact List.map_injective_iff.2 (Option.some_injective T) h2

/-- `set` on an occupied cell replaces its payload in place and disturbs
nothing else. -/
theorem set_inv {l : LRUList T} {occ free : List Nat} {i : Nat}
    (hI : Inv l occ free) (him : i ∈ occ) (t : T) :
    Inv (l.set i t) occ free ∧
    ((l.set i t).entry i).value = some t ∧
    (∀ a, a ≠ i → (l.set i t).entry a = l.entry a) ∧
    (l.set i t).values.length = l.values.length := by
  have hib : i < l.values.length := hI.bound i (List.mem_append_left _ him)
  have hself : ((l.set i t).entry i).value = some t := by
    rw [set, entry_updValue_self _ hib]
  have hne : ∀ a, a ≠ i → (l.set i t).entry a = l.entry a := by
    intro a ha
    rw [set, entry_updValue_ne _ ha]
  refine ⟨⟨hI.nodup, ?_, ?_, ?_, ?_, ?_⟩, hself, hne, l.values.length_set ..⟩
  · intro a ha
    rw [set, length_updValue]
    exact hI.bound a ha
  · rw [set, length_updValue]
    exact hI.cover
  · exact pathOK_updValue i (some t) hI.occOK
  · exact pathOK_updValue i (some t) hI.freeOK
  · intro j hj
    by_cases hji : j = i
    · subst hji
      rw [hself]
      rfl
    · rw [hne j hji]
      exact hI.occVal j hj

end LRUList

end LRUOps5

section ListHelpers

theorem map_some_append_split {α : Type} {a : List α} {X Y : List (Option α)}
    {p : α} (h : a.map some = X ++ some p :: Y) :
    ∃ A B, a = A ++ p :: B ∧ A.map some = X ∧ B.map some = Y := by
  induction X generalizing a with
  | nil =>
    cases a with
    | nil => simp at h
    | cons q t =>
      simp only [List.map_cons, List.nil_append, List.cons.injEq,
        Option.some.injEq] at h
      exact ⟨[], t, by simp [h.1], rfl, h.2⟩
  | cons x X ih =>
    cases a with
    | nil => simp at h
    | cons q t =>
      simp only [List.map_cons, List.cons_append, List.cons.injEq] at h
      obtain ⟨A, B, h1, h2, h3⟩ := ih h.2
      exact ⟨q :: A, B, by simp [h1], by simp [h.1, h2], h3⟩

variable {K V : Type} [DecidableEq K]

theorem find_key_middle {A B : List (K × V)} {k : K} {v : V}
    (hA : k ∉ A.map Prod.fst) :
    (A ++ (k, v) :: B).find? (fun p => decide (p.1 = k)) = some (k, v) := by
  induction A with
  | nil => simp [List.find?]
  | cons q t ih =>
    have hq : ¬ (q.1 = k) := by
      intro he
      exact hA (by simp [he])
    have ht : k ∉ t.map Prod.fst := fun h => hA (by simp [h])
    rw [List.cons_append, List.find?_cons_of_neg _ (by simpa using hq)]
    exact ih ht

theorem eraseP_key_middle {A B : List (K × V)} {k : K} {v : V}
    (hA : k ∉ A.map Prod.fst) :
    (A ++ (k, v) :: B).eraseP (fun q => decide (q.1 = k)) = A ++ B := by
  induction A with
  | nil => simp [List.eraseP_cons]
  | cons q t ih =>
    have hq : ¬ (q.1 = k) := by
      intro he
      exact hA (by simp [he])
    have ht : k ∉ t.map Prod.fst := fun h => hA (by simp [h])
    rw [List.cons_append, List.eraseP_cons_of_neg (by simpa using hq), ih ht,
      List.cons_append]

theorem replace_key_middle {A B : List (K × V)} {k : K} {v0 v1 : V}
    (hA : k ∉ A.map Prod.fst) (hB : k ∉ B.map Prod.fst) :
    (A ++ (k, v0) :: B).map (fun p => if p.1 = k then (k, v1) else p) =
      A ++ (k, v1) :: B := by
  induction A with
  | nil =>
    simp only [List.nil_append, List.map_cons, if_pos rfl, List.cons.injEq,
      true_and]
    induction B with
    | nil => simp
    | cons q t ihB =>
      have hq : ¬ (q.1 = k) := by
        intro he
        exact hB (by simp [he])
      have ht : k ∉ t.map Prod.fst := fun h => hB (by simp [h])
      simp [hq, ihB ht]
  | cons q t ih =>
    have hq : ¬ (q.1 = k) := by
      intro he
      exact hA (by simp [he])
    have ht : k ∉ t.map Prod.fst := fun h => hA (by simp [h])
    simp only [List.cons_append, List.map_cons]
    rw [if_neg hq, ih ht]

theorem map_fst_replace (a : List (K × V)) (k : K) (v : V) :
    (a.map (fun p => if p.1 = k then (k, v) else p)).map Prod.fst =
      a.map Prod.fst := by
  induction a with
  | nil => rfl
  | cons q t ih =>
    by_cases hq : q.1 = k
    · simp [hq, ih]
    · simp [hq, ih]

theorem keys_split_not_mem {A B : List (K × V)} {k : K} {v : V}
    (hnd : ((A ++ (k, v) :: B).map Prod.fst).Nodup) :
    k ∉ A.map Prod.fst ∧ k ∉ B.map Prod.fst := by
  rw [List.map_append, List.map_cons, List.nodup_append] at hnd
  obtain ⟨h1, h2, h3⟩ := hnd
  rw [List.nodup_cons] at h2
  constructor
  · intro h
    exact h3 h (by simp)
  · exact h2.1

end ListHelpers

section SizedRepBasic

namespace SizedCache

variable {K V : Type} [DecidableEq K]

theorem rep_with_size {n : Nat} {c : SizedCache K V} (h : with_size n = some c) :
    Rep c [] [] [] := by
  simp only [with_size] at h
  by_cases hn : n = 0
  · rw [if_pos hn] at h
    cases h
  · rw [if_neg hn] at h
    injection h with h
    subst h
    refine ⟨LRUList.inv_with_capacity n, rfl, by simp, ?_, rfl, List.nodup_nil,
      List.nodup_nil, Nat.pos_of_ne_zero hn, by simp⟩
    intro k i hk
    simp [HMap.getOp] at hk

theorem Rep.lenEq {c : SizedCache K V} {occ free : List Nat} {a : List (K × V)}
    (hR : Rep c occ free a) : occ.length = a.length := by
  have h := congrArg List.length hR.absEq
  simpa using h

theorem Rep.mem_keys {c : SizedCache K V} {occ free : List Nat} {a : List (K × V)}
    (hR : Rep c occ free a) (k : K) :
    (HMap.getOp c.store k).isSome ↔ k ∈ a.map Prod.fst := by
  constructor
  · intro h
    obtain ⟨i, hi⟩ := Option.isSome_iff_exists.1 h
    obtain ⟨him, v, hpay⟩ := hR.sto2 k i hi
    have hmem : some (k, v) ∈ a.map some := by
      rw [← hR.absEq, ← hpay]
      exact List.mem_map_of_mem _ him
    rw [List.mem_map] at hmem
    obtain ⟨p, hp, hpe⟩ := hmem
    injection hpe with hpe
    subst hpe
    exact List.mem_map_of_mem _ hp
  · intro h
    rw [List.mem_map] at h
    obtain ⟨p, hp, hpk⟩ := h
    have hmem : some p ∈ occ.map (fun i => (c.order.entry i).value) := by
      rw [hR.absEq]
      exact List.mem_map_of_mem _ hp
    rw [List.mem_map] at hmem
    obtain ⟨i, hi, hpay⟩ := hmem
    obtain ⟨k', v', hkv, hsto⟩ := hR.sto1 i hi
    rw [hkv] at hpay
    injection hpay with hpay
    subst hpk
    rw [← hpay]
    simp [hsto]

theorem Rep.split {c : SizedCache K V} {occ free : List Nat} {a : List (K × V)}
    (hR : Rep c occ free a) {k : K} {i : Nat}
    (h : HMap.getOp c.store k = some i) :
    ∃ u w A B v, occ = u ++ i :: w ∧ a = A ++ (k, v) :: B ∧
      (c.order.entry i).value = some (k, v) ∧
      u.map (fun j => (c.order.entry j).value) = A.map some ∧
      w.map (fun j => (c.order.entry j).value) = B.map some ∧
      A.length = u.length ∧ B.length = w.length := by
  obtain ⟨him, v, hpay⟩ := hR.sto2 k i h
  obtain ⟨u, w, hocc⟩ := List.append_of_mem him
  have habs := hR.absEq
  rw [hocc, List.map_append, List.map_cons, hpay] at habs
  obtain ⟨A, B, ha, hA, hB⟩ := map_some_append_split habs.symm
  refine ⟨u, w, A, B, v, hocc, ha, hpay, hA.symm, hB.symm, ?_, ?_⟩
  · have h1 := congrArg List.length hA
    simpa using h1
  · have h1 := congrArg List.length hB
    simpa using h1

theorem rep_iter {c : SizedCache K V} {occ free : List Nat} {a : List (K × V)}
    (hR : Rep c occ free a) : c.order.iter = a :=
  LRUList.iter_eq_of_inv hR.lru hR.absEq

theorem rep_key_order {c : SizedCache K V} {occ free : List Nat} {a : List (K × V)}
    (hR : Rep c occ free a) : c.key_order = a.map Prod.fst := by
  rw [key_order, rep_iter hR]

theorem rep_value_order {c : SizedCache K V} {occ free : List Nat} {a : List (K × V)}
    (hR : Rep c occ free a) : c.value_order = a.map Prod.snd := by
  rw [value_order, rep_iter hR]

theorem rep_size {c : SizedCache K V} {occ free : List Nat} {a : List (K × V)}
    (hR : Rep c occ free a) : c.cache_size = a.length := by
  rw [cache_size, hR.klen, hR.lenEq]

end SizedCache

end SizedRepBasic

section SizedRepGet

namespace SizedCache

variable {K V : Type} [DecidableEq K]

/-- `cache_get` refines `absGet`: it never aborts from a represented state,
returns the abstract result, promotes the key, and counts one hit or miss. -/
theorem cache_get_rep {c : SizedCache K V} {occ free : List Nat} {a : List (K × V)}
    (hR : Rep c occ free a) (k : K) :
    ∃ c' occ', cache_get c k = some ((absGet a k).1, c') ∧
      Rep c' occ' free (absGet a k).2 ∧
      c'.capacity = c.capacity ∧ c'.store = c.store ∧
      ((absGet a k).1.isSome → c'.hits = c.hits + 1 ∧ c'.misses = c.misses) ∧
      ((absGet a k).1 = none → c'.hits = c.hits ∧ c'.misses = c.misses + 1) := by
  cases hlook : HMap.getOp c.store k with
  | none =>
    have hnk : k ∉ a.map Prod.fst := by
      intro h
      have h2 := (hR.mem_keys k).2 h
      rw [hlook] at h2
      simp at h2
    have hfind : a.find? (fun p => decide (p.1 = k)) = none := by
      rw [List.find?_eq_none]
      intro p hp hpk
      have hpe : p.1 = k := of_decide_eq_true hpk
      exact hnk (hpe ▸ List.mem_map_of_mem _ hp)
    have habs : absGet a k = (none, a) := by
      simp [absGet, hfind]
    refine ⟨{ c with misses := c.misses + 1 }, occ, ?_, ?_, rfl, rfl, ?_, ?_⟩
    · simp only [cache_get]
      rw [hlook, habs]
    · rw [habs]
      exact ⟨hR.lru, hR.absEq, hR.sto1, hR.sto2, hR.klen, hR.knd, hR.aknd,
        hR.capPos, hR.sizeLe⟩
    · intro h
      rw [habs] at h
      simp at h
    · intro _
      exact ⟨rfl, rfl⟩
  | some i =>
    obtain ⟨u, w, A, B, v, hocc, ha, hpay, hu, hw, hlA, hlB⟩ := hR.split hlook
    have hkeys := hR.aknd
    rw [ha] at hkeys
    obtain ⟨hkA, hkB⟩ := keys_split_not_mem hkeys
    have hfind : a.find? (fun p => decide (p.1 = k)) = some (k, v) := by
      rw [ha]
      exact find_key_middle hkA
    have herase : a.eraseP (fun q => decide (q.1 = k)) = A ++ B := by
      rw [ha]
      exact eraseP_key_middle hkA
    have habs : absGet a k = (some v, (k, v) :: (A ++ B)) := by
      simp [absGet, hfind, herase]
    obtain ⟨hInv', hlen', hval'⟩ := LRUList.move_to_front_inv hR.lru hocc
    have hread : (c.order.move_to_front i).get i = some (k, v) := by
      rw [LRUList.get, hval' i, hpay]
    have hget : cache_get c k = some (some v,
        { c with order := c.order.move_to_front i, hits := c.hits + 1 }) := by
      simp only [cache_get, hlook, hread]
    refine ⟨{ c with order := c.order.move_to_front i, hits := c.hits + 1 },
      i :: (u ++ w), ?_, ?_, rfl, rfl, ?_, ?_⟩
    · rw [hget, habs]
    · rw [habs]
      refine ⟨hInv', ?_, ?_, ?_, ?_, hR.knd, ?_, hR.capPos, hR.sizeLe⟩
      · simp only [List.map_cons, List.map_append]
        rw [hval' i, hpay]
        congr 1
        congr 1
        · rw [← hu]
          exact List.map_congr_left (fun j _ => hval' j)
        · rw [← hw]
          exact List.map_congr_left (fun j _ => hval' j)
      · intro j hj
        have hj' : j ∈ occ := by
          rw [hocc]
          rcases List.mem_cons.1 hj with h | h
          · simp [h]
          · rcases List.mem_append.1 h with h1 | h1
            · simp [h1]
            · simp [h1]
        obtain ⟨k', v', hkv', hsto'⟩ := hR.sto1 j hj'
        exact ⟨k', v', by rw [hval' j]; exact hkv', hsto'⟩
      · intro k' j hk'
        obtain ⟨hjm, v', hkv'⟩ := hR.sto2 k' j hk'
        refine ⟨?_, v', by rw [hval' j]; exact hkv'⟩
        rw [hocc] at hjm
        rcases List.mem_append.1 hjm with h | h
        · simp [h]
        · rcases List.mem_cons.1 h with h1 | h1
          · simp [h1]
          · simp [h1]
      · rw [hR.klen, hocc]
        simp only [List.length_cons, List.length_append]
        omega
      · have hperm : ((A ++ (k, v) :: B).map Prod.fst).Perm
            (((k, v) :: (A ++ B)).map Prod.fst) := List.perm_middle.map Prod.fst
        exact hperm.nodup hkeys
    · intro _
      exact ⟨rfl, rfl⟩
    · intro h
      rw [habs] at h
      simp at h

end SizedCache

end SizedRepGet

section SizedRepSet

namespace SizedCache

variable {K V : Type} [DecidableEq K]

/-- `cache_set` refines `absSet`: it never aborts from a represented state,
evicts the least recently used pair exactly when at capacity, and inserts or
overwrites in place; the hit/miss counters and the capacity are untouched. -/
theorem cache_set_rep {c : SizedCache K V} {occ free : List Nat} {a : List (K × V)}
    (hR : Rep c occ free a) (k : K) (v : V) :
    ∃ c' occ' free', cache_set c k v = some c' ∧
      Rep c' occ' free' (absSet c.capacity a k v) ∧
      c'.capacity = c.capacity ∧ c'.hits = c.hits ∧ c'.misses = c.misses := by
  have phase2 : ∀ (c1 : SizedCache K V) (occ1 free1 : List Nat) (a1 : List (K × V)),
      Rep c1 occ1 free1 a1 → a1.length < c1.capacity →
      ∃ c' occ' free',
        (match HMap.getOp c1.store k with
         | some index => some { c1 with order := c1.order.set index (k, v) }
         | none =>
           let pf := c1.order.push_front none
           some { c1 with store := HMap.insertOp c1.store k pf.1,
                          order := pf.2.set pf.1 (k, v) }) = some c' ∧
        Rep c' occ' free'
          (if k ∈ a1.map Prod.fst then
            a1.map (fun p => if p.1 = k then (k, v) else p)
           else (k, v) :: a1) ∧
        c'.capacity = c1.capacity ∧ c'.hits = c1.hits ∧ c'.misses = c1.misses := by
    intro c1 occ1 free1 a1 hR1 hlt
    cases hlook : HMap.getOp c1.store k with
    | some index =>
      obtain ⟨u, w, A, B, v0, hocc, ha, hpay, hu, hw, hlA, hlB⟩ := hR1.split hlook
      have hkeys := hR1.aknd
      rw [ha] at hkeys
      obtain ⟨hkA, hkB⟩ := keys_split_not_mem hkeys
      have hmem : k ∈ a1.map Prod.fst := (hR1.mem_keys k).1 (by rw [hlook]; rfl)
      have hrepl : a1.map (fun p => if p.1 = k then (k, v) else p) =
          A ++ (k, v) :: B := by
        rw [ha]
        exact replace_key_middle hkA hkB
      obtain ⟨hInv', hset, hsetne, hlen'⟩ :=
        LRUList.set_inv hR1.lru (show index ∈ occ1 by rw [hocc]; simp) ((k, v))
      have hidxu : index ∉ u ∧ index ∉ w := by
        have hnd := hR1.lru.nodupOcc
        rw [hocc, List.nodup_cons, List.nodup_append] at hnd
        constructor
        · intro h
          exact hnd.2.2.2 h (by simp)
        · have := hnd.2.2.1
          rw [List.nodup_cons] at this
          exact this.1
      refine ⟨{ c1 with order := c1.order.set index (k, v) }, occ1, free1, rfl,
        ?_, rfl, rfl, rfl⟩
      rw [if_pos hmem, hrepl]
      refine ⟨hInv', ?_, ?_, ?_, ?_, hR1.knd, ?_, hR1.capPos, hR1.sizeLe⟩
      · rw [hocc, List.map_append, List.map_cons, List.map_append, List.map_cons,
          hset]
        congr 1
        · rw [← hu]
          exact List.map_congr_left (fun j hj =>
            congrArg ListEntry.value (hsetne j (fun he => hidxu.1 (he ▸ hj))))
        · congr 1
          rw [← hw]
          exact List.map_congr_left (fun j hj =>
            congrArg ListEntry.value (hsetne j (fun he => hidxu.2 (he ▸ hj))))
      · intro j hj
        by_cases hji : j = index
        · subst hji
          exact ⟨k, v, hset, hlook⟩
        · obtain ⟨k', v', hkv', hsto'⟩ := hR1.sto1 j hj
          exact ⟨k', v', by rw [hsetne j hji]; exact hkv', hsto'⟩
      · intro k'' j hk''
        obtain ⟨hjm, v'', hkv''⟩ := hR1.sto2 k'' j hk''
        by_cases hji : j = index
        · subst hji
          have hke : k'' = k := by
            rw [hpay] at hkv''
            injection hkv'' with h1
            exact (congrArg Prod.fst h1).symm
          subst hke
          exact ⟨hjm, v, hset⟩
        · exact ⟨hjm, v'', by rw [hsetne j hji]; exact hkv''⟩
      · exact hR1.klen
      · have he : ((A ++ (k, v) :: B).map Prod.fst) =
            ((A ++ (k, v0) :: B).map Prod.fst) := by simp
        rw [he]
        exact hkeys
    | none =>
      have hnk : k ∉ a1.map Prod.fst := by
        intro h
        have h2 := (hR1.mem_keys k).2 h
        rw [hlook] at h2
        simp at h2
      obtain ⟨idx, l', fr', hpf, hidxlt, hnd', hbd', hcov', hoccOK', hfreeOK',
        hvidx, hvne⟩ := LRUList.push_front_inv hR1.lru none
      have hidxocc : idx ∉ occ1 := by
        rw [List.nodup_cons, List.cons_append, List.nodup_cons] at hnd'
        intro h
        exact hnd'.2.1 (List.mem_append_left _ h)
      have hsetlen : (l'.set idx (k, v)).values.length = l'.values.length :=
        l'.values.length_set ..
      refine ⟨{ c1 with store := HMap.insertOp c1.store k idx,
                        order := l'.set idx (k, v) },
        idx :: occ1, fr', ?_, ?_, rfl, rfl, rfl⟩
      · simp only [hpf]
      · rw [if_neg hnk]
        have hvidx' : ((l'.set idx (k, v)).entry idx).value = some (k, v) := by
          rw [LRUList.set, LRUList.entry_updValue_self _ hidxlt]
        have hvne' : ∀ j, j ≠ idx →
            ((l'.set idx (k, v)).entry j).value = (c1.order.entry j).value := by
          intro j hj
          rw [LRUList.set, LRUList.entry_updValue_ne _ hj, hvne j hj]
        refine ⟨⟨hnd', ?_, ?_, ?_, ?_, ?_⟩, ?_, ?_, ?_, ?_, ?_, ?_, hR1.capPos, ?_⟩
        · intro x hx
          rw [hsetlen]
          exact hbd' x hx
        · rw [hsetlen]
          exact hcov'
        · exact LRUList.pathOK_updValue idx (some (k, v)) hoccOK'
        · exact LRUList.pathOK_updValue idx (some (k, v)) hfreeOK'
        · intro j hj
          rcases List.mem_cons.1 hj with h | h
          · subst h
            rw [hvidx']
            rfl
          · rw [hvne' j (fun he => hidxocc (he ▸ h))]
            exact hR1.lru.occVal j h
        · rw [List.map_cons, List.map_cons, hvidx']
          congr 1
          rw [← hR1.absEq]
          exact List.map_congr_left (fun j hj =>
            hvne' j (fun he => hidxocc (he ▸ hj)))
        · intro j hj
          rcases List.mem_cons.1 hj with h | h
          · subst h
            exact ⟨k, v, hvidx', HMap.getOp_insertOp_self _ _ _⟩
          · obtain ⟨k', v', hkv', hsto'⟩ := hR1.sto1 j h
            have hk'k : k' ≠ k := by
              intro he
              rw [he, hlook] at hsto'
              cases hsto'
            refine ⟨k', v', ?_, ?_⟩
            · rw [hvne' j (fun he => hidxocc (he ▸ h))]
              exact hkv'
            · rw [HMap.getOp_insertOp_ne _ _ hk'k]
              exact hsto'
        · intro k'' j hk''
          by_cases hke : k'' = k
          · subst hke
            rw [HMap.getOp_insertOp_self] at hk''
            injection hk'' with hk''
            subst hk''
            exact ⟨by simp, v, hvidx'⟩
          · rw [HMap.getOp_insertOp_ne _ _ hke] at hk''
            obtain ⟨hjm, v'', hkv''⟩ := hR1.sto2 k'' j hk''
            refine ⟨by simp [hjm], v'', ?_⟩
            rw [hvne' j (fun he => hidxocc (he ▸ hjm))]
            exact hkv''
        · show (HMap.insertOp c1.store k idx).length = (idx :: occ1).length
          rw [HMap.insertOp_of_getOp_none _ _ hlook]
          simp only [List.length_append, List.length_singleton, List.length_cons]
          rw [hR1.klen]
          simp
        · have he : (HMap.insertOp c1.store k idx).map Prod.fst =
              c1.store.map Prod.fst ++ [k] := by
            rw [HMap.insertOp_of_getOp_none _ _ hlook]
            simp
          rw [he, List.nodup_append]
          refine ⟨hR1.knd, by simp, ?_⟩
          intro x hx hx2
          simp at hx2
          subst hx2
          exact (HMap.getOp_eq_none_iff _ _).1 hlook hx
        · simp only [List.map_cons, List.nodup_cons]
          exact ⟨hnk, hR1.aknd⟩
        · show (HMap.insertOp c1.store k idx).length ≤ c1.capacity
          rw [HMap.insertOp_of_getOp_none _ _ hlook]
          simp only [List.length_append, List.length_singleton]
          have h1 : c1.store.length = a1.length := by
            rw [hR1.klen, hR1.lenEq]
          omega
  by_cases hcap : c.capacity ≤ c.store.length
  · have hsz : c.store.length = c.capacity := le_antisymm hR.sizeLe hcap
    have halen : a.length = c.capacity := by
      rw [← hR.lenEq, ← hR.klen, hsz]
    have hanil : occ ≠ [] := by
      intro h
      rw [h] at hR
      have h1 := hR.klen
      simp only [List.length_nil] at h1
      have h2 := hR.capPos
      omega
    obtain ⟨u, q, hocc⟩ : ∃ u q, occ = u ++ [q] := by
      rcases List.eq_nil_or_concat occ with h | ⟨u, q, h⟩
      · exact absurd h hanil
      · exact ⟨u, q, by rw [h, List.concat_eq_append]⟩
    obtain ⟨kb, vb, hkvq, hstoq⟩ := hR.sto1 q (by rw [hocc]; simp)
    have habseq := hR.absEq
    rw [hocc, List.map_append, List.map_cons, List.map_nil, hkvq] at habseq
    obtain ⟨A, B, ha, hA, hB⟩ := map_some_append_split habseq.symm
    have hBnil : B = [] := by
      cases B with
      | nil => rfl
      | cons x t => simp at hB
    subst hBnil
    obtain ⟨t, l2, hpop, hvq, hInv2, hlen2, hval2⟩ := LRUList.pop_back_inv hR.lru hocc
    have ht : t = (kb, vb) := by
      rw [hkvq] at hvq
      injection hvq with h1
      exact h1.symm
    subst ht
    have hremfst : (HMap.removeOp c.store kb).1 = some q := by
      rw [HMap.removeOp_fst, hstoq]
    have hpair : HMap.removeOp c.store kb = (some q, (HMap.removeOp c.store kb).2) := by
      rw [← hremfst]
    have hqu : q ∉ u := by
      have hnd := hR.lru.nodupOcc
      rw [hocc, List.nodup_cons, List.nodup_append] at hnd
      intro h
      exact hnd.2.2.2 h (by simp)
    have hstore1len : c.store.length = (HMap.removeOp c.store kb).2.length + 1 :=
      HMap.length_removeOp_present _ (by rw [hstoq]; rfl)
    have hrep1 : Rep { c with store := (HMap.removeOp c.store kb).2, order := l2 }
        u (q :: free) A := by
      refine ⟨hInv2, ?_, ?_, ?_, ?_, ?_, ?_, hR.capPos, ?_⟩
      · show u.map (fun j => (l2.entry j).value) = A.map some
        rw [hA]
        exact List.map_congr_left (fun j hj => hval2 j (fun he => hqu (he ▸ hj)))
      · intro j hj
        show ∃ k' v', (l2.entry j).value = some (k', v') ∧
          HMap.getOp (HMap.removeOp c.store kb).2 k' = some j
        obtain ⟨k', v', hkv', hsto'⟩ := hR.sto1 j (by rw [hocc]; simp [hj])
        have hk'kb : k' ≠ kb := by
          intro he
          rw [he, hstoq] at hsto'
          injection hsto' with h1
          exact hqu (h1 ▸ hj)
        refine ⟨k', v', ?_, ?_⟩
        · rw [hval2 j (fun he => hqu (he ▸ hj))]
          exact hkv'
        · rw [HMap.getOp_removeOp_ne _ hk'kb]
          exact hsto'
      · intro k'' j hk''
        replace hk'' : HMap.getOp (HMap.removeOp c.store kb).2 k'' = some j := hk''
        have hk''kb : k'' ≠ kb := by
          intro he
          rw [he, HMap.getOp_removeOp_self _ _ hR.knd] at hk''
          cases hk''
        rw [HMap.getOp_removeOp_ne _ hk''kb] at hk''
        obtain ⟨hjm, v'', hkv''⟩ := hR.sto2 k'' j hk''
        rw [hocc] at hjm
        have hju : j ∈ u := by
          rcases List.mem_append.1 hjm with h | h
          · exact h
          · simp at h
            subst h
            rw [hkvq] at hkv''
            injection hkv'' with h1
            exact absurd (congrArg Prod.fst h1).symm hk''kb
        refine ⟨hju, v'', ?_⟩
        show (l2.entry j).value = some (k'', v'')
        rw [hval2 j (fun he => hqu (he ▸ hju))]
        exact hkv''
      · show (HMap.removeOp c.store kb).2.length = u.length
        have h1 := hR.klen
        rw [hocc] at h1
        simp only [List.length_append, List.length_singleton] at h1
        omega
      · have hsub : ((HMap.removeOp c.store kb).2.map Prod.fst).Sublist
            (c.store.map Prod.fst) := (HMap.removeOp_sublist _ _).map _
        exact hsub.nodup hR.knd
      · have hsub : (A.map Prod.fst).Sublist (a.map Prod.fst) := by
          rw [ha]
          exact (List.sublist_append_left A [(kb, vb)]).map _
        exact hsub.nodup hR.aknd
      · show (HMap.removeOp c.store kb).2.length ≤ c.capacity
        omega
    have hAlen : A.length < c.capacity := by
      have h1 := congrArg List.length hA
      simp only [List.length_map] at h1
      have h2 := hR.klen
      rw [hocc] at h2
      simp only [List.length_append, List.length_singleton] at h2
      have := hR.capPos
      omega
    obtain ⟨c', occ', free', heq, hRep', hcap', hh', hm'⟩ :=
      phase2 { c with store := (HMap.removeOp c.store kb).2, order := l2 }
        u (q :: free) A hrep1 hAlen
    have ha1 : (if c.capacity ≤ a.length then a.dropLast else a) = A := by
      rw [if_pos (by omega : c.capacity ≤ a.length), ha, List.dropLast_concat]
    have habsset : absSet c.capacity a k v =
        (if k ∈ A.map Prod.fst then
          A.map (fun p => if p.1 = k then (k, v) else p)
         else (k, v) :: A) := by
      simp only [absSet]
      rw [ha1]
    refine ⟨c', occ', free', ?_, ?_, ?_, hh', hm'⟩
    · simp only [cache_set]
      rw [if_pos hcap, hpop]
      simp only [Option.some_bind]
      rw [hpair]
      exact heq
    · rw [habsset]
      exact hRep'
    · exact hcap'
  · have hsz : c.store.length < c.capacity := lt_of_not_le hcap
    have halen : a.length < c.capacity := by
      rw [← hR.lenEq, ← hR.klen]
      exact hsz
    obtain ⟨c', occ', free', heq, hRep', hcap', hh', hm'⟩ :=
      phase2 c occ free a hR halen
    have ha1 : (if c.capacity ≤ a.length then a.dropLast else a) = a :=
      if_neg (by omega)
    have habsset : absSet c.capacity a k v =
        (if k ∈ a.map Prod.fst then
          a.map (fun p => if p.1 = k then (k, v) else p)
         else (k, v) :: a) := by
      simp only [absSet]
      rw [ha1]
    refine ⟨c', occ', free', ?_, ?_, ?_, hh', hm'⟩
    · simp only [cache_set]
      rw [if_neg hcap]
      simp only [Option.some_bind]
      exact heq
    · rw [habsset]
      exact hRep'
    · exact hcap'

end SizedCache

end SizedRepSet

section SizedRepRemove

namespace SizedCache

variable {K V : Type} [DecidableEq K]

/-- `cache_remove` never aborts from a represented state and preserves the
invariant, the capacity and both counters. -/
theorem cache_remove_rep {c : SizedCache K V} {occ free : List Nat}
    {a : List (K × V)} (hR : Rep c occ free a) (k : K) :
    ∃ r c' occ' free' a', cache_remove c k = some (r, c') ∧
      Rep c' occ' free' a' ∧
      c'.capacity = c.capacity ∧ c'.hits = c.hits ∧ c'.misses = c.misses := by
  obtain ⟨r1, store1, hsp⟩ : ∃ r1 store1, HMap.removeOp c.store k = (r1, store1) :=
    ⟨_, _, rfl⟩
  cases hlook : HMap.getOp c.store k with
  | none =>
    have hr1 : r1 = none := by
      have h1 := HMap.removeOp_fst c.store k
      rw [hsp, hlook] at h1
      exact h1
    subst hr1
    refine ⟨none, c, occ, free, a, ?_, hR, rfl, rfl, rfl⟩
    simp only [cache_remove, hsp]
  | some i =>
    have hr1 : r1 = some i := by
      have h1 := HMap.removeOp_fst c.store k
      rw [hsp, hlook] at h1
      exact h1
    subst hr1
    have hstore1 : store1 = (HMap.removeOp c.store k).2 := by
      rw [hsp]
    obtain ⟨u, w, A, B, v, hocc, ha, hpay, hu, hw, hlA, hlB⟩ := hR.split hlook
    obtain ⟨t, l2, hrem, hvq, hInv2, hlen2, hval2⟩ := LRUList.remove_inv hR.lru hocc
    have ht : t = (k, v) := by
      rw [hpay] at hvq
      injection hvq with h1
      exact h1.symm
    subst ht
    have hiu : i ∉ u ∧ i ∉ w := by
      have hnd := hR.lru.nodupOcc
      rw [hocc, List.nodup_cons, List.nodup_append] at hnd
      constructor
      · intro h
        exact hnd.2.2.2 h (by simp)
      · have h1 := hnd.2.2.1
        rw [List.nodup_cons] at h1
        exact h1.1
    have hstore1len : c.store.length = store1.length + 1 := by
      rw [hstore1]
      exact HMap.length_removeOp_present _ (by rw [hlook]; rfl)
    refine ⟨some v, { c with store := store1, order := l2 },
      u ++ w, i :: free, A ++ B, ?_, ?_, rfl, rfl, rfl⟩
    · simp only [cache_remove, hsp]
      rw [hrem]
    · refine ⟨hInv2, ?_, ?_, ?_, ?_, ?_, ?_, hR.capPos, ?_⟩
      · show (u ++ w).map (fun j => (l2.entry j).value) = (A ++ B).map some
        rw [List.map_append, List.map_append]
        congr 1
        · rw [← hu]
          exact List.map_congr_left
            (fun j hj => hval2 j (fun he => hiu.1 (he ▸ hj)))
        · rw [← hw]
          exact List.map_congr_left
            (fun j hj => hval2 j (fun he => hiu.2 (he ▸ hj)))
      · intro j hj
        show ∃ k' v', (l2.entry j).value = some (k', v') ∧
          HMap.getOp store1 k' = some j
        have hji : j ≠ i := by
          intro he
          rcases List.mem_append.1 hj with h | h
          · exact hiu.1 (he ▸ h)
          · exact hiu.2 (he ▸ h)
        obtain ⟨k', v', hkv', hsto'⟩ := hR.sto1 j (by
          rw [hocc]
          rcases List.mem_append.1 hj with h | h
          · simp [h]
          · simp [h])
        have hk'k : k' ≠ k := by
          intro he
          rw [he, hlook] at hsto'
          injection hsto' with h1
          exact hji h1.symm
        refine ⟨k', v', ?_, ?_⟩
        · rw [hval2 j hji]
          exact hkv'
        · rw [hstore1, HMap.getOp_removeOp_ne _ hk'k]
          exact hsto'
      · intro k'' j hk''
        replace hk'' : HMap.getOp store1 k'' = some j := hk''
        rw [hstore1] at hk''
        have hk''k : k'' ≠ k := by
          intro he
          rw [he, HMap.getOp_removeOp_self _ _ hR.knd] at hk''
          cases hk''
        rw [HMap.getOp_removeOp_ne _ hk''k] at hk''
        obtain ⟨hjm, v'', hkv''⟩ := hR.sto2 k'' j hk''
        rw [hocc] at hjm
        have hji : j ≠ i := by
          intro he
          subst he
          rw [hpay] at hkv''
          injection hkv'' with h1
          exact hk''k (congrArg Prod.fst h1).symm
        have hjm' : j ∈ u ++ w := by
          rcases List.mem_append.1 hjm with h | h
          · exact List.mem_append_left _ h
          · rcases List.mem_cons.1 h with h1 | h1
            · exact absurd h1 hji
            · exact List.mem_append_right _ h1
        refine ⟨hjm', v'', ?_⟩
        show (l2.entry j).value = some (k'', v'')
        rw [hval2 j hji]
        exact hkv''
      · show store1.length = (u ++ w).length
        have h1 := hR.klen
        rw [hocc] at h1
        simp only [List.length_append, List.length_cons] at h1 ⊢
        omega
      · have hsub : (store1.map Prod.fst).Sublist
            (c.store.map Prod.fst) := by
          rw [hstore1]
          exact (HMap.removeOp_sublist _ _).map _
        exact hsub.nodup hR.knd
      · have hsub : ((A ++ B).map Prod.fst).Sublist (a.map Prod.fst) := by
          rw [ha]
          exact (List.Sublist.append_left (List.sublist_cons_self (k, v) B) A).map _
        exact hsub.nodup hR.aknd
      · show store1.length ≤ c.capacity
        have := hR.sizeLe
        omega

/-- `cache_clear` empties the cache and preserves the counters. -/
theorem cache_clear_rep {c : SizedCache K V} {occ free : List Nat}
    {a : List (K × V)} (hR : Rep c occ free a) :
    Rep (cache_clear c) [] [] [] := by
  refine ⟨LRUList.inv_clear c.order, rfl, ?_, ?_, rfl, List.nodup_nil,
    List.nodup_nil, hR.capPos, ?_⟩
  · intro i hi
    exact absurd hi (List.not_mem_nil i)
  · intro k i hk
    simp [cache_clear, HMap.getOp] at hk
  · show ([] : HMap K Nat).length ≤ c.capacity
    simp

end SizedCache

end SizedRepRemove

section SizedRepRun

namespace SizedCache

variable {K V : Type} [DecidableEq K]

theorem with_size_capacity {n : Nat} {c : SizedCache K V}
    (h : with_size n = some c) : c.capacity = n := by
  simp only [with_size] at h
  by_cases hn : n = 0
  · rw [if_pos hn] at h
    cases h
  · rw [if_neg hn] at h
    injection h with h
    subst h
    rfl

/-- Every contract operation on a represented state succeeds, preserves the
representation invariant and the capacity, and never decreases a counter. -/
theorem step_rep {c : SizedCache K V} {occ free : List Nat} {a : List (K × V)}
    (hR : Rep c occ free a) (op : CacheOp K V) :
    ∃ c' occ' free' a', step c op = some c' ∧ Rep c' occ' free' a' ∧
      c'.capacity = c.capacity ∧ c.hits ≤ c'.hits ∧ c.misses ≤ c'.misses := by
  cases op with
  | get k =>
    obtain ⟨c', occ', h1, h2, h3, _, h5, h6⟩ := cache_get_rep hR k
    refine ⟨c', occ', free, (absGet a k).2, ?_, h2, h3, ?_, ?_⟩
    · simp [step, h1]
    · cases hv : (absGet a k).1 with
      | none =>
        obtain ⟨e1, _⟩ := h6 hv
        omega
      | some v =>
        obtain ⟨e1, _⟩ := h5 (by rw [hv]; rfl)
        omega
    · cases hv : (absGet a k).1 with
      | none =>
        obtain ⟨_, e2⟩ := h6 hv
        omega
      | some v =>
        obtain ⟨_, e2⟩ := h5 (by rw [hv]; rfl)
        omega
  | set k v =>
    obtain ⟨c', occ', free', h1, h2, h3, h4, h5⟩ := cache_set_rep hR k v
    exact ⟨c', occ', free', _, h1, h2, h3, le_of_eq h4.symm, le_of_eq h5.symm⟩
  | remove k =>
    obtain ⟨r, c', occ', free', a', h1, h2, h3, h4, h5⟩ := cache_remove_rep hR k
    refine ⟨c', occ', free', a', ?_, h2, h3, le_of_eq h4.symm, le_of_eq h5.symm⟩
    simp [step, h1]
  | clear =>
    exact ⟨c.cache_clear, [], [], [], rfl, cache_clear_rep hR, rfl,
      le_refl _, le_refl _⟩
  | reset =>
    exact ⟨c.cache_reset, [], [], [], rfl, cache_clear_rep hR, rfl,
      le_refl _, le_refl _⟩

/-- Any sequence of contract operations on a represented state succeeds and
ends in a represented state with the same capacity and counters at least as
large. -/
theorem runOps_rep {c : SizedCache K V} {occ free : List Nat}
    {a : List (K × V)} (hR : Rep c occ free a) (ops : List (CacheOp K V)) :
    ∃ c' occ' free' a', runOps c ops = some c' ∧ Rep c' occ' free' a' ∧
      c'.capacity = c.capacity ∧ c.hits ≤ c'.hits ∧ c.misses ≤ c'.misses := by
  induction ops generalizing c occ free a with
  | nil => exact ⟨c, occ, free, a, rfl, hR, rfl, le_refl _, le_refl _⟩
  | cons op t ih =>
    obtain ⟨c1, occ1, free1, a1, h1, hR1, hcap1, hh1, hm1⟩ := step_rep hR op
    obtain ⟨c', occ', free', a', h2, hR2, hcap2, hh2, hm2⟩ := ih hR1
    refine ⟨c', occ', free', a', ?_, hR2, by omega, by omega, by omega⟩
    simp [runOps, h1, h2]

/-- Every reachable `SizedCache` state is represented. -/
theorem reachable_rep {c : SizedCache K V} (h : Reachable c) :
    ∃ occ free a, Rep c occ free a := by
  obtain ⟨size, c0, ops, h0, hrun⟩ := h
  obtain ⟨c', occ', free', a', h1, hR', _, _, _⟩ :=
    runOps_rep (rep_with_size h0) ops
  rw [hrun] at h1
  injection h1 with h1
  subst h1
  exact ⟨occ', free', a', hR'⟩

/-- A sequence of `cache_set` calls on a represented state succeeds, refines
`absRunSets`, and preserves the capacity and both counters. -/
theorem runSets_rep {c : SizedCache K V} {occ free : List Nat}
    {a : List (K × V)} (hR : Rep c occ free a) (l : List (K × V)) :
    ∃ c' occ' free', runSets c l = some c' ∧
      Rep c' occ' free' (absRunSets c.capacity a l) ∧
      c'.capacity = c.capacity ∧ c'.hits = c.hits ∧ c'.misses = c.misses := by
  induction l generalizing c occ free a with
  | nil => exact ⟨c, occ, free, rfl, hR, rfl, rfl, rfl⟩
  | cons p t ih =>
    obtain ⟨c1, occ1, free1, h1, hR1, hcap1, hh1, hm1⟩ := cache_set_rep hR p.1 p.2
    obtain ⟨c', occ', free', h2, hR2, hcap2, hh2, hm2⟩ := ih hR1
    rw [hcap1] at hR2
    refine ⟨c', occ', free', ?_, ?_, by omega, by omega, by omega⟩
    · simp [runSets, h1, h2]
    · simp only [absRunSets]
      exact hR2

end SizedCache

end SizedRepRun

section AbsModelLemmas

namespace SizedCache

variable {K V : Type} [DecidableEq K]

/-- `absSet` keeps the content within the capacity bound. -/
theorem absSet_length_le {cap : Nat} {a : List (K × V)} (k : K) (v : V)
    (hcap : 0 < cap) (hlen : a.length ≤ cap) :
    (absSet cap a k v).length ≤ cap := by
  simp only [absSet]
  by_cases h1 : cap ≤ a.length
  · rw [if_pos h1]
    have hd : a.dropLast.length = a.length - 1 := List.length_dropLast a
    by_cases h2 : k ∈ a.dropLast.map Prod.fst
    · rw [if_pos h2, List.length_map]
      omega
    · rw [if_neg h2]
      simp only [List.length_cons]
      omega
  · rw [if_neg h1]
    by_cases h2 : k ∈ a.map Prod.fst
    · rw [if_pos h2, List.length_map]
      omega
    · rw [if_neg h2]
      simp only [List.length_cons]
      omega

/-- Below capacity, setting a fresh key pushes it to the front. -/
theorem absSet_fresh {cap : Nat} {a : List (K × V)} {k : K} (v : V)
    (hk : k ∉ a.map Prod.fst) (hlen : a.length < cap) :
    absSet cap a k v = (k, v) :: a := by
  simp only [absSet]
  rw [if_neg (by omega : ¬ cap ≤ a.length), if_neg hk]

theorem absRunSets_append (cap : Nat) (a : List (K × V))
    (l1 l2 : List (K × V)) :
    absRunSets cap a (l1 ++ l2) = absRunSets cap (absRunSets cap a l1) l2 := by
  induction l1 generalizing a with
  | nil => rfl
  | cons p t ih =>
    simp only [List.cons_append, absRunSets]
    exact ih _

/-- Setting fresh, pairwise-distinct keys within the capacity stacks them in
reverse insertion order on top of the existing content. -/
theorem absRunSets_fresh {cap : Nat} :
    ∀ (l a : List (K × V)), (l.map Prod.fst).Nodup →
      (∀ x ∈ l.map Prod.fst, x ∉ a.map Prod.fst) →
      a.length + l.length ≤ cap →
      absRunSets cap a l = l.reverse ++ a := by
  intro l
  induction l with
  | nil =>
    intro a _ _ _
    simp [absRunSets]
  | cons p t ih =>
    intro a hnd hdisj hlen
    have hfresh : p.1 ∉ a.map Prod.fst := hdisj p.1 (by simp)
    have hset : absSet cap a p.1 p.2 = p :: a :=
      absSet_fresh p.2 hfresh
        (by simp only [List.length_cons] at hlen; omega)
    have hp1 : p.1 ∉ t.map Prod.fst := by
      simp only [List.map_cons, List.nodup_cons] at hnd
      exact hnd.1
    have hnd' : (t.map Prod.fst).Nodup := by
      simp only [List.map_cons, List.nodup_cons] at hnd
      exact hnd.2
    have hdisj' : ∀ x ∈ t.map Prod.fst, x ∉ (p :: a).map Prod.fst := by
      intro x hx
      simp only [List.map_cons, List.mem_cons]
      push_neg
      refine ⟨?_, hdisj x (by simp [hx])⟩
      intro he
      exact hp1 (he ▸ hx)
    have hlen' : (p :: a).length + t.length ≤ cap := by
      simp only [List.length_cons] at hlen ⊢
      omega
    simp only [absRunSets, hset]
    rw [ih (p :: a) hnd' hdisj' hlen']
    simp

/-- Overwriting the sole binding of a one-element cache leaves a one-element
cache. -/
theorem absSet_same_key {cap : Nat} (k : K) (v v' : V) :
    absSet cap [(k, v')] k v = [(k, v)] := by
  by_cases h1 : cap ≤ 1
  · simp [absSet, h1]
  · simp [absSet, h1]

theorem absRunSets_same_key {cap : Nat} (k : K) (v : V) :
    ∀ n, absRunSets cap [(k, v)] (List.replicate n (k, v)) = [(k, v)] := by
  intro n
  induction n with
  | zero => rfl
  | succ m ih =>
    rw [List.replicate_succ]
    show absRunSets cap (absSet cap [(k, v)] k v) (List.replicate m (k, v)) =
      [(k, v)]
    rw [absSet_same_key]
    exact ih

/-- Splitting a pair list along a decomposition of its key list. -/
theorem map_fst_split {a : List (K × V)} {xs : List K} {y : K}
    (h : a.map Prod.fst = xs ++ [y]) :
    ∃ B q, a = B ++ [q] ∧ B.map Prod.fst = xs ∧ q.1 = y := by
  induction xs generalizing a with
  | nil =>
    cases a with
    | nil => simp at h
    | cons q t =>
      simp only [List.map_cons, List.nil_append, List.cons.injEq] at h
      have ht : t = [] := by
        cases t with
        | nil => rfl
        | cons _ _ => simp at h
      subst ht
      exact ⟨[], q, rfl, rfl, h.1⟩
  | cons x xs ih =>
    cases a with
    | nil => simp at h
    | cons q t =>
      simp only [List.map_cons, List.cons_append, List.cons.injEq] at h
      obtain ⟨B, q', h1, h2, h3⟩ := ih h.2
      exact ⟨q :: B, q', by rw [h1, List.cons_append], by simp [h.1, h2], h3⟩

end SizedCache

end AbsModelLemmas

section CounterLemmas

variable {K V : Type} [DecidableEq K]

namespace SizedCache

/-- Any successful `cache_get` bumps exactly one of the two counters. -/
theorem get_counters {c : SizedCache K V} {k : K}
    {r : Option V × SizedCache K V} (h : cache_get c k = some r) :
    (r.2.hits = c.hits + 1 ∧ r.2.misses = c.misses) ∨
      (r.2.hits = c.hits ∧ r.2.misses = c.misses + 1) := by
  simp only [cache_get] at h
  cases hl : HMap.getOp c.store k with
  | some i =>
    simp only [hl] at h
    cases hg : (c.order.move_to_front i).get i with
    | none =>
      simp only [hg] at h
      exact Option.noConfusion h
    | some kv =>
      simp only [hg] at h
      injection h with h
      subst h
      left
      exact ⟨rfl, rfl⟩
  | none =>
    simp only [hl] at h
    injection h with h
    subst h
    right
    exact ⟨rfl, rfl⟩

/-- Any successful `cache_set` leaves both counters unchanged. -/
theorem set_counters {c c' : SizedCache K V} {k : K} {v : V}
    (h : cache_set c k v = some c') :
    c'.hits = c.hits ∧ c'.misses = c.misses := by
  simp only [cache_set] at h
  by_cases hcap : c.capacity ≤ c.store.length
  · rw [if_pos hcap] at h
    cases hp : c.order.pop_back with
    | none =>
      simp only [hp, Option.none_bind] at h
      exact Option.noConfusion h
    | some pr =>
      obtain ⟨kv, order1⟩ := pr
      obtain ⟨r1, store1, hsp⟩ :
          ∃ r1 store1, HMap.removeOp c.store kv.1 = (r1, store1) := ⟨_, _, rfl⟩
      cases r1 with
      | none =>
        simp only [hp, hsp, Option.none_bind] at h
        exact Option.noConfusion h
      | some i =>
        simp only [hp, hsp, Option.some_bind] at h
        cases hl : HMap.getOp store1 k with
        | some j =>
          simp only [hl] at h
          injection h with h
          subst h
          exact ⟨rfl, rfl⟩
        | none =>
          simp only [hl] at h
          injection h with h
          subst h
          exact ⟨rfl, rfl⟩
  · rw [if_neg hcap] at h
    simp only [Option.some_bind] at h
    cases hl : HMap.getOp c.store k with
    | some j =>
      simp only [hl] at h
      injection h with h
      subst h
      exact ⟨rfl, rfl⟩
    | none =>
      simp only [hl] at h
      injection h with h
      subst h
      exact ⟨rfl, rfl⟩

/-- Any successful `cache_remove` leaves both counters unchanged. -/
theorem remove_counters {c : SizedCache K V} {k : K}
    {r : Option V × SizedCache K V} (h : cache_remove c k = some r) :
    r.2.hits = c.hits ∧ r.2.misses = c.misses := by
  obtain ⟨r1, store1, hsp⟩ :
      ∃ r1 store1, HMap.removeOp c.store k = (r1, store1) := ⟨_, _, rfl⟩
  cases r1 with
  | none =>
    simp only [cache_remove, hsp] at h
    injection h with h
    subst h
    exact ⟨rfl, rfl⟩
  | some i =>
    simp only [cache_remove, hsp] at h
    cases hrem : c.order.remove i with
    | none =>
      simp only [hrem] at h
      exact Option.noConfusion h
    | some pr =>
      obtain ⟨kv, order1⟩ := pr
      simp only [hrem] at h
      injection h with h
      subst h
      exact ⟨rfl, rfl⟩

/-- Any successful contract operation never decreases a counter. -/
theorem step_counters {c c' : SizedCache K V} {op : CacheOp K V}
    (h : step c op = some c') :
    c.hits ≤ c'.hits ∧ c.misses ≤ c'.misses := by
  cases op with
  | get k =>
    simp only [step] at h
    cases hg : cache_get c k with
    | none => rw [hg] at h; cases h
    | some r =>
      rw [hg] at h
      have h2 : some r.2 = some c' := h
      injection h2 with h2
      subst h2
      rcases get_counters hg with ⟨e1, e2⟩ | ⟨e1, e2⟩ <;> omega
  | set k v =>
    obtain ⟨e1, e2⟩ := set_counters (h : cache_set c k v = some c')
    omega
  | remove k =>
    simp only [step] at h
    cases hg : cache_remove c k with
    | none => rw [hg] at h; cases h
    | some r =>
      rw [hg] at h
      have h2 : some r.2 = some c' := h
      injection h2 with h2
      subst h2
      obtain ⟨e1, e2⟩ := remove_counters hg
      omega
  | clear =>
    simp only [step] at h
    injection h with h
    subst h
    exact ⟨le_refl _, le_refl _⟩
  | reset =>
    simp only [step] at h
    injection h with h
    subst h
    exact ⟨le_refl _, le_refl _⟩

/-- Counters are monotone along any successful operation sequence. -/
theorem runOps_counters {c c' : SizedCache K V} {ops : List (CacheOp K V)}
    (h : runOps c ops = some c') :
    c.hits ≤ c'.hits ∧ c.misses ≤ c'.misses := by
  induction ops generalizing c with
  | nil =>
    injection h with h
    subst h
    exact ⟨le_refl _, le_refl _⟩
  | cons op t ih =>
    simp only [runOps] at h
    cases hs : step c op with
    | none => rw [hs] at h; cases h
    | some c1 =>
      rw [hs] at h
      simp only [Option.some_bind] at h
      obtain ⟨e1, e2⟩ := step_counters hs
      obtain ⟨f1, f2⟩ := ih h
      omega

end SizedCache

namespace UnboundCache

/-- Every operation on an `UnboundCache` never decreases a counter. -/
theorem ub_step_counters (c : UnboundCache K V) (op : CacheOp K V) :
    c.hits ≤ (c.step op).hits ∧ c.misses ≤ (c.step op).misses := by
  cases op with
  | get k =>
    simp only [step, cache_get]
    cases hl : HMap.getOp c.store k with
    | some v =>
      simp only [hl]
      exact ⟨Nat.le_succ _, le_refl _⟩
    | none =>
      simp only [hl]
      exact ⟨le_refl _, Nat.le_succ _⟩
  | set k v => exact ⟨le_refl _, le_refl _⟩
  | remove k => exact ⟨le_refl _, le_refl _⟩
  | clear => exact ⟨le_refl _, le_refl _⟩
  | reset => exact ⟨le_refl _, le_refl _⟩

/-- Counters are monotone along any operation sequence on an
`UnboundCache`. -/
theorem ub_runOps_counters (c : UnboundCache K V) (ops : List (CacheOp K V)) :
    c.hits ≤ (runOps c ops).hits ∧ c.misses ≤ (runOps c ops).misses := by
  induction ops generalizing c with
  | nil => exact ⟨le_refl _, le_refl _⟩
  | cons op t ih =>
    obtain ⟨e1, e2⟩ := ub_step_counters c op
    obtain ⟨f1, f2⟩ := ih (c.step op)
    exact ⟨le_trans e1 f1, le_trans e2 f2⟩

end UnboundCache

namespace TimedCache

/-- Any successful timed `cache_get` bumps exactly one of the counters. -/
theorem tc_get_counters {c : TimedCache K V} {now : Nat} {k : K}
    {r : Option V × TimedCache K V} (h : cache_get c now k = some r) :
    (r.2.hits = c.hits + 1 ∧ r.2.misses = c.misses) ∨
      (r.2.hits = c.hits ∧ r.2.misses = c.misses + 1) := by
  simp only [cache_get] at h
  cases hl : HMap.getOp c.store k with
  | none =>
    simp only [hl] at h
    injection h with h
    subst h
    right
    exact ⟨rfl, rfl⟩
  | some sv =>
    by_cases ht : now - sv.1 < c.seconds
    · simp only [hl, if_pos ht] at h
      injection h with h
      subst h
      left
      exact ⟨rfl, rfl⟩
    · simp only [hl, if_neg ht] at h
      obtain ⟨r1, store1, hsp⟩ :
          ∃ r1 store1, HMap.removeOp c.store k = (r1, store1) := ⟨_, _, rfl⟩
      cases r1 with
      | none =>
        simp only [hsp] at h
        exact Option.noConfusion h
      | some p =>
        simp only [hsp] at h
        injection h with h
        subst h
        right
        exact ⟨rfl, rfl⟩

/-- Any successful timed operation never decreases a counter. -/
theorem tc_step_counters {c c' : TimedCache K V} {op : Nat × CacheOp K V}
    (h : step c op = some c') :
    c.hits ≤ c'.hits ∧ c.misses ≤ c'.misses := by
  obtain ⟨now, op⟩ := op
  cases op with
  | get k =>
    simp only [step] at h
    cases hg : cache_get c now k with
    | none => rw [hg] at h; cases h
    | some r =>
      rw [hg] at h
      have h2 : some r.2 = some c' := h
      injection h2 with h2
      subst h2
      rcases tc_get_counters hg with ⟨e1, e2⟩ | ⟨e1, e2⟩ <;> omega
  | set k v =>
    simp only [step] at h
    injection h with h
    subst h
    exact ⟨le_refl _, le_refl _⟩
  | remove k =>
    simp only [step] at h
    injection h with h
    subst h
    exact ⟨le_refl _, le_refl _⟩
  | clear =>
    simp only [step] at h
    injection h with h
    subst h
    exact ⟨le_refl _, le_refl _⟩
  | reset =>
    simp only [step] at h
    injection h with h
    subst h
    exact ⟨le_refl _, le_refl _⟩

/-- Counters are monotone along any successful timed operation sequence. -/
theorem tc_runOps_counters {c c' : TimedCache K V}
    {ops : List (Nat × CacheOp K V)} (h : runOps c ops = some c') :
    c.hits ≤ c'.hits ∧ c.misses ≤ c'.misses := by
  induction ops generalizing c with
  | nil =>
    injection h with h
    subst h
    exact ⟨le_refl _, le_refl _⟩
  | cons op t ih =>
    simp only [runOps] at h
    cases hs : step c op with
    | none => rw [hs] at h; cases h
    | some c1 =>
      rw [hs] at h
      simp only [Option.some_bind] at h
      obtain ⟨e1, e2⟩ := tc_step_counters hs
      obtain ⟨f1, f2⟩ := ih h
      omega

end TimedCache

end CounterLemmas

section Claims

/-- Claim C1: for every capacity `N > 0` (with `with_size N` succeeding
exactly for such `N`) and every sequence of `cache_set` calls on the
constructed cache, the whole run succeeds and `cache_size` never exceeds `N`
afterwards; since every prefix of a sequence of sets is itself such a
sequence, the bound holds after any prefix. -/
theorem claim_C1 {K V : Type} [DecidableEq K] {N : Nat} {c0 : SizedCache K V}
    (h0 : SizedCache.with_size N = some c0) (l : List (K × V)) :
    ∃ c', SizedCache.runSets c0 l = some c' ∧ c'.cache_size ≤ N := by
  obtain ⟨c', occ', free', h1, hR', hcap', _, _⟩ :=
    SizedCache.runSets_rep (SizedCache.rep_with_size h0) l
  refine ⟨c', h1, ?_⟩
  have hle := hR'.sizeLe
  rw [hcap', SizedCache.with_size_capacity h0] at hle
  exact hle

/-- Witness for claim C1: capacity 2, three sets, final size at most 2. -/
theorem claim_C1_witness :
    ∃ c0 : SizedCache Nat Nat, SizedCache.with_size 2 = some c0 ∧
      ∃ c', SizedCache.runSets c0 [(1, 10), (2, 20), (3, 30)] = some c' ∧
        c'.cache_size ≤ 2 := by
  obtain ⟨c0, h0⟩ : ∃ c0 : SizedCache Nat Nat,
      SizedCache.with_size 2 = some c0 := ⟨_, rfl⟩
  exact ⟨c0, h0, claim_C1 h0 [(1, 10), (2, 20), (3, 30)]⟩

/-- Claim C3: repeated `cache_set` of the same key on a freshly constructed
`SizedCache` never creates two order-list entries for that key — after `n ≥ 1`
duplicate sets the key order is exactly the one-element list `[k]` (hence in
particular duplicate-free) and `cache_size` is 1. -/
theorem claim_C3 {K V : Type} [DecidableEq K] {N : Nat} {c0 : SizedCache K V}
    (h0 : SizedCache.with_size N = some c0) (n : Nat) (hn : 1 ≤ n)
    (k : K) (v : V) :
    ∃ c', SizedCache.runSets c0 (List.replicate n (k, v)) = some c' ∧
      c'.key_order = [k] ∧ c'.key_order.Nodup ∧ c'.cache_size = 1 := by
  obtain ⟨m, rfl⟩ : ∃ m, n = m + 1 := ⟨n - 1, by omega⟩
  have hR0 := SizedCache.rep_with_size h0
  have hcappos : 0 < c0.capacity := hR0.capPos
  obtain ⟨c', occ', free', h1, hR', _, _, _⟩ :=
    SizedCache.runSets_rep hR0 (List.replicate (m + 1) (k, v))
  have habs : SizedCache.absRunSets c0.capacity []
      (List.replicate (m + 1) (k, v)) = [(k, v)] := by
    rw [List.replicate_succ]
    show SizedCache.absRunSets c0.capacity
      (SizedCache.absSet c0.capacity [] k v) (List.replicate m (k, v)) =
        [(k, v)]
    have h2 : SizedCache.absSet c0.capacity [] k v = [(k, v)] :=
      SizedCache.absSet_fresh v (by simp) (by simpa using hcappos)
    rw [h2]
    exact SizedCache.absRunSets_same_key k v m
  rw [habs] at hR'
  refine ⟨c', h1, ?_, ?_, ?_⟩
  · rw [SizedCache.rep_key_order hR']
    rfl
  · rw [SizedCache.rep_key_order hR']
    exact List.nodup_singleton k
  · rw [SizedCache.rep_size hR']
    rfl

/-- Witness for claim C3: capacity 3, four duplicate sets of key 7. -/
theorem claim_C3_witness :
    ∃ c0 : SizedCache Nat Nat, SizedCache.with_size 3 = some c0 ∧
      ∃ c', SizedCache.runSets c0 (List.replicate 4 ((7 : Nat), (9 : Nat))) =
          some c' ∧
        c'.key_order = [7] ∧ c'.key_order.Nodup ∧ c'.cache_size = 1 := by
  obtain ⟨c0, h0⟩ : ∃ c0 : SizedCache Nat Nat,
      SizedCache.with_size 3 = some c0 := ⟨_, rfl⟩
  exact ⟨c0, h0, claim_C3 h0 4 (by omega) 7 9⟩

/-- Claim C6: on every cache variant the hit and miss counters never decrease
across any (successful) operation, hence along any operation sequence, and
`cache_clear`/`cache_reset` leave both counters exactly unchanged. -/
theorem claim_C6 {K V : Type} [DecidableEq K] :
    (∀ (c : UnboundCache K V) (op : CacheOp K V),
      c.hits ≤ (c.step op).hits ∧ c.misses ≤ (c.step op).misses) ∧
    (∀ (c : UnboundCache K V) (ops : List (CacheOp K V)),
      c.hits ≤ (UnboundCache.runOps c ops).hits ∧
        c.misses ≤ (UnboundCache.runOps c ops).misses) ∧
    (∀ c : UnboundCache K V,
      c.cache_clear.hits = c.hits ∧ c.cache_clear.misses = c.misses ∧
        c.cache_reset.hits = c.hits ∧ c.cache_reset.misses = c.misses) ∧
    (∀ (c c' : SizedCache K V) (op : CacheOp K V),
      SizedCache.step c op = some c' →
        c.hits ≤ c'.hits ∧ c.misses ≤ c'.misses) ∧
    (∀ (c c' : SizedCache K V) (ops : List (CacheOp K V)),
      SizedCache.runOps c ops = some c' →
        c.hits ≤ c'.hits ∧ c.misses ≤ c'.misses) ∧
    (∀ c : SizedCache K V,
      c.cache_clear.hits = c.hits ∧ c.cache_clear.misses = c.misses ∧
        c.cache_reset.hits = c.hits ∧ c.cache_reset.misses = c.misses) ∧
    (∀ (c c' : TimedCache K V) (op : Nat × CacheOp K V),
      TimedCache.step c op = some c' →
        c.hits ≤ c'.hits ∧ c.misses ≤ c'.misses) ∧
    (∀ (c c' : TimedCache K V) (ops : List (Nat × CacheOp K V)),
      TimedCache.runOps c ops = some c' →
        c.hits ≤ c'.hits ∧ c.misses ≤ c'.misses) ∧
    (∀ c : TimedCache K V,
      c.cache_clear.hits = c.hits ∧ c.cache_clear.misses = c.misses ∧
        c.cache_reset.hits = c.hits ∧ c.cache_reset.misses = c.misses) := by
  refine ⟨?_, ?_, ?_, ?_, ?_, ?_, ?_, ?_, ?_⟩
  · exact fun c op => UnboundCache.ub_step_counters c op
  · exact fun c ops => UnboundCache.ub_runOps_counters c ops
  · exact fun c => ⟨rfl, rfl, rfl, rfl⟩
  · exact fun c c' op h => SizedCache.step_counters h
  · exact fun c c' ops h => SizedCache.runOps_counters h
  · exact fun c => ⟨rfl, rfl, rfl, rfl⟩
  · exact fun c c' op h => TimedCache.tc_step_counters h
  · exact fun c c' ops h => TimedCache.tc_runOps_counters h
  · exact fun c => ⟨rfl, rfl, rfl, rfl⟩

/-- Claim C7: `with_size 0` aborts construction (`none`, the model of the
panic) and never returns a cache; for every positive size it returns an
empty cache of that capacity which is usable: every subsequent operation
sequence runs without aborting. -/
theorem claim_C7 {K V : Type} [DecidableEq K] :
    (SizedCache.with_size 0 = (none : Option (SizedCache K V))) ∧
    ∀ size : Nat, 0 < size → ∃ c : SizedCache K V,
      SizedCache.with_size size = some c ∧ c.capacity = size ∧
      c.cache_size = 0 ∧ c.key_order = [] ∧ c.hits = 0 ∧ c.misses = 0 ∧
      ∀ ops : List (CacheOp K V), ∃ c', SizedCache.runOps c ops = some c' := by
  constructor
  · simp [SizedCache.with_size]
  · intro size hs
    have hsome : SizedCache.with_size size =
        some ({ store := [], order := LRUList.with_capacity size,
                capacity := size, hits := 0, misses := 0 } : SizedCache K V) := by
      rw [SizedCache.with_size, if_neg (by omega)]
    refine ⟨_, hsome, rfl, rfl, ?_, rfl, rfl, ?_⟩
    · exact SizedCache.rep_key_order (SizedCache.rep_with_size hsome)
    · intro ops
      obtain ⟨c', _, _, _, h1, _, _, _, _⟩ :=
        SizedCache.runOps_rep (SizedCache.rep_with_size hsome) ops
      exact ⟨c', h1⟩

/-- Claim C10: a timed `cache_set` stamps the entry with the current time, so
overwriting any (possibly old) entry restarts its expiry clock: the new
entry is stored with timestamp `now`, and any `cache_get` whose elapsed time
since `now` is within the lifespan counts a hit and returns the new value. -/
theorem claim_C10 {K V : Type} [DecidableEq K] (c : TimedCache K V) (k : K)
    (v : V) (now later : Nat) (hfresh : later - now < c.seconds) :
    HMap.getOp (TimedCache.cache_set c now k v).store k = some (now, v) ∧
    TimedCache.cache_get (TimedCache.cache_set c now k v) later k =
      some (some v,
        { TimedCache.cache_set c now k v with hits := c.hits + 1 }) := by
  have hget : HMap.getOp (TimedCache.cache_set c now k v).store k =
      some (now, v) := HMap.getOp_insertOp_self c.store k (now, v)
  refine ⟨hget, ?_⟩
  have hsec : (TimedCache.cache_set c now k v).seconds = c.seconds := rfl
  simp only [TimedCache.cache_get, hget, hsec, if_pos hfresh]
  rfl

/-- Witness for claim C10: an entry stamped at time 0 with lifespan 2 is
overwritten at time 100 and is then still fresh at time 101. -/
theorem claim_C10_witness :
    HMap.getOp (TimedCache.cache_set
        (TimedCache.cache_set (TimedCache.with_lifespan 2) 0 1 5)
        100 1 (9 : Nat)).store 1 = some (100, 9) ∧
    TimedCache.cache_get (TimedCache.cache_set
        (TimedCache.cache_set (TimedCache.with_lifespan 2) 0 1 5)
        100 1 9) 101 1 =
      some (some 9,
        { TimedCache.cache_set
            (TimedCache.cache_set (TimedCache.with_lifespan 2) 0 1 5)
            100 1 9 with
          hits := (TimedCache.cache_set (TimedCache.with_lifespan 2) 0 1
            (5 : Nat)).hits + 1 }) :=
  claim_C10 (TimedCache.cache_set (TimedCache.with_lifespan 2) 0 1 5)
    1 9 100 101 (by decide)

/-- Claim C8: on a `TimedCache`, `cache_get` at time `now` counts a hit and
returns the stored value when the key is present and within its lifespan;
counts a miss, evicts the entry and returns absent when the key is present
but expired; and counts a miss and returns absent when the key is absent.
The duplicate-free key hypothesis is the standing invariant of the embedded
hash map. -/
theorem claim_C8 {K V : Type} [DecidableEq K] (c : TimedCache K V) (k : K)
    (now : Nat) (hnd : (c.store.map Prod.fst).Nodup) :
    (∀ (t : Nat) (v : V), HMap.getOp c.store k = some (t, v) →
      now - t < c.seconds →
      TimedCache.cache_get c now k =
        some (some v, { c with hits := c.hits + 1 })) ∧
    (∀ (t : Nat) (v : V), HMap.getOp c.store k = some (t, v) →
      ¬ now - t < c.seconds →
      ∃ c', TimedCache.cache_get c now k = some (none, c') ∧
        c'.hits = c.hits ∧ c'.misses = c.misses + 1 ∧
        HMap.getOp c'.store k = none ∧
        c'.store.length + 1 = c.store.length ∧
        ∀ k', k' ≠ k → HMap.getOp c'.store k' = HMap.getOp c.store k') ∧
    (HMap.getOp c.store k = none →
      TimedCache.cache_get c now k =
        some (none, { c with misses := c.misses + 1 })) := by
  refine ⟨?_, ?_, ?_⟩
  · intro t v hget ht
    simp only [TimedCache.cache_get, hget, if_pos ht]
    rfl
  · intro t v hget ht
    obtain ⟨r1, store1, hsp⟩ :
        ∃ r1 store1, HMap.removeOp c.store k = (r1, store1) := ⟨_, _, rfl⟩
    have hr1 : r1 = some (t, v) := by
      have h1 := HMap.removeOp_fst c.store k
      rw [hsp, hget] at h1
      exact h1
    subst hr1
    refine ⟨{ c with misses := c.misses + 1, store := store1 },
      ?_, rfl, rfl, ?_, ?_, ?_⟩
    · simp only [TimedCache.cache_get, hget, if_neg ht, hsp]
    · have h2 := HMap.getOp_removeOp_self c.store k hnd
      rw [hsp] at h2
      exact h2
    · have hsome : (HMap.getOp c.store k).isSome := by
        rw [hget]
        rfl
      have h2 := HMap.length_removeOp_present c.store hsome
      rw [hsp] at h2
      have h3 : c.store.length = store1.length + 1 := h2
      show store1.length + 1 = c.store.length
      omega
    · intro k' hk'
      have h2 := HMap.getOp_removeOp_ne c.store hk'
      rw [hsp] at h2
      exact h2
  · intro hget
    simp only [TimedCache.cache_get, hget]

/-- Witness for claim C8 at a concrete one-entry timed cache, exercising the
fresh branch. -/
theorem claim_C8_witness :
    ∃ c' : TimedCache Nat Nat,
      TimedCache.cache_get
        (TimedCache.cache_set (TimedCache.with_lifespan 10) 0 1 5) 3 1 =
          some (some 5, c') := by
  obtain ⟨h1, _, _⟩ :=
    claim_C8 (TimedCache.cache_set (TimedCache.with_lifespan 10) 0 1 5) 1 3
      (by decide)
  exact ⟨_, h1 0 5 rfl (by decide)⟩

/-- Claim C4 (amended): a `cache_set` overwrite of a key already present in a
reachable `SizedCache` below capacity overwrites the stored value in place —
the content list (`order.iter`) of the post-state is the pre-state's content
with exactly `k`'s pair replaced by `(k, v)`, so `(k, v)` is stored — and
leaves the LRU recency order (`key_order`) unchanged; the original claim,
which asserted the frame property for every state, fails at capacity (see
the counterexample), where the pre-insertion eviction can move the
overwritten key. -/
theorem claim_C4 {K V : Type} [DecidableEq K] {c : SizedCache K V}
    (hreach : SizedCache.Reachable c) (k : K) (hk : k ∈ c.key_order)
    (hlt : c.cache_size < c.capacity) (v : V) :
    ∃ c', SizedCache.cache_set c k v = some c' ∧
      c'.order.iter =
        c.order.iter.map (fun p => if p.1 = k then (k, v) else p) ∧
      (k, v) ∈ c'.order.iter ∧
      c'.key_order = c.key_order := by
  obtain ⟨occ, free, a, hR⟩ := SizedCache.reachable_rep hreach
  obtain ⟨c', occ', free', h1, hR', _, _, _⟩ := SizedCache.cache_set_rep hR k v
  have hmem : k ∈ a.map Prod.fst := by
    rw [← SizedCache.rep_key_order hR]
    exact hk
  have hsz := SizedCache.rep_size hR
  have habs : SizedCache.absSet c.capacity a k v =
      a.map (fun p => if p.1 = k then (k, v) else p) := by
    simp only [SizedCache.absSet]
    rw [if_neg (by omega : ¬ c.capacity ≤ a.length), if_pos hmem]
  rw [habs] at hR'
  have hiter : c'.order.iter =
      a.map (fun p => if p.1 = k then (k, v) else p) :=
    SizedCache.rep_iter hR'
  refine ⟨c', h1, ?_, ?_, ?_⟩
  · rw [hiter, SizedCache.rep_iter hR]
  · rw [hiter]
    obtain ⟨p, hp, hpk⟩ := List.mem_map.1 hmem
    exact List.mem_map.2 ⟨p, hp, by rw [if_pos hpk]⟩
  · rw [SizedCache.rep_key_order hR', SizedCache.rep_key_order hR]
    exact map_fst_replace a k v

/-- Counterexample to claim C4 as stated: on a capacity-2 cache holding keys
1 and 2 with `key_order = [2, 1]`, overwriting the already-present key 1 via
`cache_set` changes `key_order` to `[1, 2]` — the key is moved to
most-recently-used by a plain `set`, with no `cache_get` involved. -/
theorem claim_C4_cex :
    ((SizedCache.with_size 2).bind
        (fun c0 : SizedCache Nat Nat =>
          SizedCache.runSets c0 [(1, 10), (2, 20)])).map
        SizedCache.key_order = some [2, 1] ∧
    ((SizedCache.with_size 2).bind
        (fun c0 : SizedCache Nat Nat =>
          SizedCache.runSets c0 [(1, 10), (2, 20), (1, 30)])).map
        SizedCache.key_order = some [1, 2] :=
  ⟨rfl, rfl⟩

/-- Witness for the amended claim C4: below capacity, overwriting key 1 on a
reachable capacity-2 cache replaces its stored value in place and preserves
the key order. -/
theorem claim_C4_witness :
    ∃ c1 : SizedCache Nat Nat,
      SizedCache.runOps { store := [], order := LRUList.with_capacity 2,
                          capacity := 2, hits := 0, misses := 0 }
        [CacheOp.set 1 10] = some c1 ∧
      SizedCache.Reachable c1 ∧ 1 ∈ c1.key_order ∧
      c1.cache_size < c1.capacity ∧
      ∃ c', SizedCache.cache_set c1 1 99 = some c' ∧
        c'.order.iter =
          c1.order.iter.map (fun p => if p.1 = 1 then (1, 99) else p) ∧
        (1, 99) ∈ c'.order.iter ∧
        c'.key_order = c1.key_order := by
  refine ⟨_, rfl, ⟨2, _, [CacheOp.set 1 10], rfl, rfl⟩, ?_, ?_, ?_⟩
  · decide
  · decide
  · exact claim_C4 ⟨2, _, [CacheOp.set 1 10], rfl, rfl⟩ 1 (by decide)
      (by decide) 99

/-- Claim C9: on a reachable `SizedCache` at capacity with recency order
`rest ++ [klru]` (least recent last), `cache_set k v` first evicts the
current least-recently-used entry `klru` and then inserts: if `k` is the LRU
key itself it is re-inserted at the most-recent position; if `k` is another
present key the overwrite lands in place but one entry (the LRU) is gone,
shrinking the cache to `capacity - 1`; a fresh `k` replaces the LRU at the
front. -/
theorem claim_C9 {K V : Type} [DecidableEq K] {c : SizedCache K V}
    (hreach : SizedCache.Reachable c) (rest : List K) (klru : K)
    (ho : c.key_order = rest ++ [klru])
    (hfull : c.cache_size = c.capacity) (k : K) (v : V) :
    ∃ c', SizedCache.cache_set c k v = some c' ∧
      (k = klru → c'.key_order = k :: rest ∧ c'.cache_size = c.capacity) ∧
      (k ≠ klru → klru ∉ c'.key_order) ∧
      (k ∈ rest → c'.key_order = rest ∧ c'.cache_size = c.capacity - 1) ∧
      (k ∉ rest → k ≠ klru →
        c'.key_order = k :: rest ∧ c'.cache_size = c.capacity) := by
  obtain ⟨occ, free, a, hR⟩ := SizedCache.reachable_rep hreach
  have hkeys : a.map Prod.fst = rest ++ [klru] := by
    rw [← SizedCache.rep_key_order hR]
    exact ho
  obtain ⟨B, q, haB, hBkeys, hqk⟩ := SizedCache.map_fst_split hkeys
  have hlen : a.length = c.capacity := by
    have h1 := SizedCache.rep_size hR
    omega
  have hnd := hR.aknd
  rw [hkeys, List.nodup_append] at hnd
  have hklru_rest : klru ∉ rest := by
    intro hmem
    exact hnd.2.2 hmem (by simp)
  obtain ⟨c', occ', free', h1, hR', hcap', _, _⟩ :=
    SizedCache.cache_set_rep hR k v
  have hdrop : a.dropLast = B := by
    rw [haB, List.dropLast_concat]
  have ha1 : (if c.capacity ≤ a.length then a.dropLast else a) = B := by
    rw [if_pos (by omega), hdrop]
  have hBlen : B.length + 1 = a.length := by
    rw [haB]
    simp
  by_cases hkmem : k ∈ rest
  · have habs : SizedCache.absSet c.capacity a k v =
        B.map (fun p => if p.1 = k then (k, v) else p) := by
      simp only [SizedCache.absSet]
      rw [ha1, if_pos (by rw [hBkeys]; exact hkmem)]
    rw [habs] at hR'
    have hkord : c'.key_order = rest := by
      rw [SizedCache.rep_key_order hR', map_fst_replace, hBkeys]
    have hsize : c'.cache_size = c.capacity - 1 := by
      rw [SizedCache.rep_size hR']
      simp only [List.length_map]
      omega
    refine ⟨c', h1, ?_, ?_, ?_, ?_⟩
    · intro hkl
      exact absurd (hkl ▸ hkmem) hklru_rest
    · intro _
      rw [hkord]
      exact hklru_rest
    · intro _
      exact ⟨hkord, hsize⟩
    · intro hkn _
      exact absurd hkmem hkn
  · have hkB : k ∉ B.map Prod.fst := by
      rw [hBkeys]
      exact hkmem
    have habs : SizedCache.absSet c.capacity a k v = (k, v) :: B := by
      simp only [SizedCache.absSet]
      rw [ha1, if_neg hkB]
    rw [habs] at hR'
    have hkord : c'.key_order = k :: rest := by
      rw [SizedCache.rep_key_order hR']
      simp only [List.map_cons]
      rw [hBkeys]
    have hsize : c'.cache_size = c.capacity := by
      rw [SizedCache.rep_size hR']
      simp only [List.length_cons]
      omega
    refine ⟨c', h1, ?_, ?_, ?_, ?_⟩
    · intro _
      exact ⟨hkord, hsize⟩
    · intro hkne
      rw [hkord]
      simp only [List.mem_cons]
      push_neg
      exact ⟨fun he => hkne he.symm, hklru_rest⟩
    · intro hmem
      exact absurd hmem hkmem
    · intro _ _
      exact ⟨hkord, hsize⟩

/-- Witness for claim C9: a full capacity-2 cache with key order `[2, 1]`,
overwriting the LRU key 1 itself re-inserts it most recently used. -/
theorem claim_C9_witness :
    SizedCache.Reachable exFull2 ∧ exFull2.key_order = [2] ++ [1] ∧
    exFull2.cache_size = exFull2.capacity ∧
    ∃ c', SizedCache.cache_set exFull2 1 30 = some c' ∧
      (1 = 1 → c'.key_order = 1 :: [2] ∧
        c'.cache_size = exFull2.capacity) := by
  have hreach : SizedCache.Reachable exFull2 :=
    ⟨2, exBase2, [CacheOp.set 1 10, CacheOp.set 2 20], rfl, rfl⟩
  refine ⟨hreach, by decide, by decide, ?_⟩
  obtain ⟨c', h1, h2, _, _, _⟩ :=
    claim_C9 hreach [2] 1 (by decide) (by decide) 1 30
  exact ⟨c', h1, h2⟩

/-- Claim C2: inserting `N + 1` pairwise-distinct keys into a fresh
`SizedCache` of size `N` succeeds and evicts exactly the first-inserted
key — the least recently used at the time of the `(N+1)`-th insert, as no
reads intervene: it is absent from the final key order, while the other `N`
keys are all present, in most-recent-first order. -/
theorem claim_C2 {K V : Type} [DecidableEq K] {N : Nat} {c0 : SizedCache K V}
    (h0 : SizedCache.with_size N = some c0) (l : List (K × V))
    (hlen : l.length = N + 1) (hnd : (l.map Prod.fst).Nodup) :
    ∃ c', SizedCache.runSets c0 l = some c' ∧
      c'.key_order = ((l.map Prod.fst).drop 1).reverse ∧
      c'.cache_size = N ∧
      (∀ x ∈ (l.map Prod.fst).drop 1, x ∈ c'.key_order) ∧
      (∀ x, (l.map Prod.fst).head? = some x → x ∉ c'.key_order) := by
  have hcap : c0.capacity = N := SizedCache.with_size_capacity h0
  have hR0 := SizedCache.rep_with_size h0
  have hNpos : 0 < N := hcap ▸ hR0.capPos
  obtain ⟨l0, p, hl⟩ : ∃ l0 p, l = l0 ++ [p] := by
    rcases List.eq_nil_or_concat l with h | ⟨l0, p, h⟩
    · subst h
      rw [List.length_nil] at hlen
      exact absurd hlen (by omega)
    · exact ⟨l0, p, by rw [h, List.concat_eq_append]⟩
  subst hl
  have hl0len : l0.length = N := by
    rw [List.length_append, List.length_singleton] at hlen
    omega
  obtain ⟨h1p, t0, hl0⟩ : ∃ h1p t0, l0 = h1p :: t0 := by
    cases l0 with
    | nil =>
      rw [List.length_nil] at hl0len
      exact absurd hl0len.symm (by omega)
    | cons x xs => exact ⟨x, xs, rfl⟩
  subst hl0
  have hndl0 : ((h1p :: t0).map Prod.fst).Nodup := by
    have hsub : ((h1p :: t0).map Prod.fst).Sublist
        (((h1p :: t0) ++ [p]).map Prod.fst) :=
      (List.sublist_append_left _ _).map _
    exact hsub.nodup hnd
  have hstep1 : SizedCache.absRunSets N [] (h1p :: t0) =
      (h1p :: t0).reverse ++ [] :=
    SizedCache.absRunSets_fresh (h1p :: t0) [] hndl0 (by simp)
      (by simp [hl0len])
  have hp1l0 : p.1 ∉ (h1p :: t0).map Prod.fst := by
    have h2 := hnd
    rw [List.map_append, List.nodup_append] at h2
    intro hmem
    exact h2.2.2 hmem (by simp)
  have hrevlen : ((h1p :: t0).reverse).length = N := by
    rw [List.length_reverse]
    exact hl0len
  have ha1 : (if N ≤ ((h1p :: t0).reverse).length
      then ((h1p :: t0).reverse).dropLast else (h1p :: t0).reverse) =
      t0.reverse := by
    rw [if_pos (by omega), List.reverse_cons, List.dropLast_concat]
  have hp1t : p.1 ∉ (t0.reverse).map Prod.fst := by
    intro hmem
    apply hp1l0
    rw [List.map_reverse, List.mem_reverse] at hmem
    simp [hmem]
  have habs : SizedCache.absRunSets N [] ((h1p :: t0) ++ [p]) =
      p :: t0.reverse := by
    rw [SizedCache.absRunSets_append, hstep1, List.append_nil]
    show SizedCache.absSet N ((h1p :: t0).reverse) p.1 p.2 = p :: t0.reverse
    simp only [SizedCache.absSet]
    rw [ha1, if_neg hp1t]
  obtain ⟨c', occ', free', h1, hR', hcap', _, _⟩ :=
    SizedCache.runSets_rep hR0 ((h1p :: t0) ++ [p])
  rw [hcap, habs] at hR'
  have hkey : c'.key_order = p.1 :: (t0.map Prod.fst).reverse := by
    rw [SizedCache.rep_key_order hR']
    simp [List.map_reverse]
  have htarget : ((((h1p :: t0) ++ [p]).map Prod.fst).drop 1).reverse =
      p.1 :: (t0.map Prod.fst).reverse := by
    simp
  refine ⟨c', h1, ?_, ?_, ?_, ?_⟩
  · rw [hkey, htarget]
  · rw [SizedCache.rep_size hR']
    have h2 : t0.length + 1 = N := by
      rw [List.length_cons] at hl0len
      omega
    simp only [List.length_cons, List.length_reverse]
    omega
  · intro x hx
    rw [hkey, ← htarget]
    exact List.mem_reverse.mpr hx
  · intro x hx
    have hxe : h1p.1 = x := by
      simp only [List.map_append, List.map_cons, List.cons_append,
        List.head?_cons, Option.some.injEq] at hx
      exact hx
    subst hxe
    rw [hkey]
    have hh : h1p.1 ∉ t0.map Prod.fst ++ [p.1] := by
      have h2 := hnd
      simp only [List.map_append, List.map_cons, List.cons_append] at h2
      rw [List.nodup_cons] at h2
      exact h2.1
    simp only [List.mem_cons]
    push_neg
    constructor
    · intro he
      exact hh (by simp [he])
    · intro hmem
      rw [List.mem_reverse] at hmem
      exact hh (by simp [hmem])

/-- Witness for claim C2: capacity 2, keys 1, 2, 3 inserted in order; key 1
is evicted and the final key order is `[3, 2]`. -/
theorem claim_C2_witness :
    ∃ c0 : SizedCache Nat Nat, SizedCache.with_size 2 = some c0 ∧
      ∃ c', SizedCache.runSets c0 [(1, 10), (2, 20), (3, 30)] = some c' ∧
        c'.key_order = [3, 2] ∧ c'.cache_size = 2 ∧
        (1 : Nat) ∉ c'.key_order := by
  obtain ⟨c0, h0⟩ : ∃ c0 : SizedCache Nat Nat,
      SizedCache.with_size 2 = some c0 := ⟨_, rfl⟩
  obtain ⟨c', h1, h2, h3, _, h5⟩ :=
    claim_C2 h0 [(1, 10), (2, 20), (3, 30)] (by decide) (by decide)
  refine ⟨c0, h0, c', h1, ?_, h3, h5 1 (by decide)⟩
  rw [h2]
  rfl

/-- Claim C5: a `cache_get` on a present key `k` of a reachable `SizedCache`
counts a hit (and no miss), moves `k` to the front of `key_order`, and
returns the value stored for `k`; consequently, on a full cache where `k`
was least recently used, a subsequent `cache_set` of a fresh key evicts the
previously second-least-recent key `klru` — not the key just read, which
stays present. -/
theorem claim_C5 {K V : Type} [DecidableEq K] {c : SizedCache K V}
    (hreach : SizedCache.Reachable c) (pre : List K) (klru k : K)
    (ho : c.key_order = (pre ++ [klru]) ++ [k])
    (hfull : c.cache_size = c.capacity)
    (knew : K) (hknew : knew ∉ c.key_order) (vnew : V) :
    ∃ v cg, SizedCache.cache_get c k = some (some v, cg) ∧
      (k, v) ∈ c.order.iter ∧
      cg.hits = c.hits + 1 ∧ cg.misses = c.misses ∧
      cg.key_order = k :: (pre ++ [klru]) ∧
      ∃ c2, SizedCache.cache_set cg knew vnew = some c2 ∧
        c2.key_order = knew :: k :: pre ∧
        k ∈ c2.key_order ∧ klru ∉ c2.key_order := by
  obtain ⟨occ, free, a, hR⟩ := SizedCache.reachable_rep hreach
  have hkeys : a.map Prod.fst = (pre ++ [klru]) ++ [k] := by
    rw [← SizedCache.rep_key_order hR]
    exact ho
  obtain ⟨B, q, haB, hBkeys, hqk⟩ := SizedCache.map_fst_split hkeys
  obtain ⟨B2, qlru, hBB2, hB2keys, hqlru⟩ := SizedCache.map_fst_split hBkeys
  have hnda := hR.aknd
  rw [hkeys, List.nodup_append] at hnda
  have hkBL : k ∉ pre ++ [klru] := fun hmem => hnda.2.2 hmem (by simp)
  have hndB : (pre ++ [klru]).Nodup := hnda.1
  have hklru_pre : klru ∉ pre := by
    rw [List.nodup_append] at hndB
    exact fun hmem => hndB.2.2 hmem (by simp)
  have hkB : k ∉ B.map Prod.fst := by
    rw [hBkeys]
    exact hkBL
  have ha2 : a = B ++ (k, q.2) :: [] := by
    rw [haB]
    have h2 : (k, q.2) = q := by
      rw [← hqk]
    rw [h2]
  have hfind : a.find? (fun x => decide (x.1 = k)) = some (k, q.2) := by
    rw [ha2]
    exact find_key_middle hkB
  have herase : a.eraseP (fun x => decide (x.1 = k)) = B := by
    rw [ha2]
    have h2 := eraseP_key_middle (v := q.2) (B := ([] : List (K × V))) hkB
    rw [List.append_nil] at h2
    exact h2
  have habsget : SizedCache.absGet a k = (some q.2, (k, q.2) :: B) := by
    simp only [SizedCache.absGet, hfind, herase]
  obtain ⟨cg, occg, hgeq, hRg, hgcap, hgstore, hhit, _⟩ :=
    SizedCache.cache_get_rep hR k
  have hgeq2 : SizedCache.cache_get c k = some (some q.2, cg) := by
    rw [habsget] at hgeq
    exact hgeq
  have hRg2 : SizedCache.Rep cg occg free ((k, q.2) :: B) := by
    rw [habsget] at hRg
    exact hRg
  obtain ⟨hh1, hh2⟩ := hhit (by rw [habsget]; rfl)
  have hkordg : cg.key_order = k :: (pre ++ [klru]) := by
    rw [SizedCache.rep_key_order hRg2]
    simp only [List.map_cons]
    rw [hBkeys]
  have hmem_iter : (k, q.2) ∈ c.order.iter := by
    rw [SizedCache.rep_iter hR, ha2]
    simp
  have hBlen : B.length + 1 = a.length := by
    rw [haB]
    simp
  have hsz := SizedCache.rep_size hR
  obtain ⟨c2, occ2, free2, hseq, hR2, h2cap, _, _⟩ :=
    SizedCache.cache_set_rep hRg2 knew vnew
  have hdrop2 : ((k, q.2) :: B).dropLast = (k, q.2) :: B2 := by
    rw [hBB2, ← List.cons_append, List.dropLast_concat]
  have hknewmem : knew ∉ ((k, q.2) :: B2).map Prod.fst := by
    rw [ho] at hknew
    intro hmem
    simp only [List.map_cons, List.mem_cons] at hmem
    rcases hmem with he | hmem
    · exact hknew (by simp [he])
    · rw [hB2keys] at hmem
      exact hknew (by simp [hmem])
  have ha1s : (if cg.capacity ≤ ((k, q.2) :: B).length
      then ((k, q.2) :: B).dropLast else (k, q.2) :: B) = (k, q.2) :: B2 := by
    have hlencons : ((k, q.2) :: B).length = cg.capacity := by
      simp only [List.length_cons]
      omega
    rw [if_pos (by omega), hdrop2]
  have habs2 : SizedCache.absSet cg.capacity ((k, q.2) :: B) knew vnew =
      (knew, vnew) :: (k, q.2) :: B2 := by
    simp only [SizedCache.absSet]
    rw [ha1s, if_neg hknewmem]
  rw [habs2] at hR2
  have hkord2 : c2.key_order = knew :: k :: pre := by
    rw [SizedCache.rep_key_order hR2]
    simp only [List.map_cons]
    rw [hB2keys]
  refine ⟨q.2, cg, hgeq2, hmem_iter, hh1, hh2, hkordg, c2, hseq, hkord2,
    ?_, ?_⟩
  · rw [hkord2]
    simp
  · rw [hkord2]
    simp only [List.mem_cons]
    push_neg
    refine ⟨?_, ?_, hklru_pre⟩
    · intro he
      apply hknew
      rw [ho, ← he]
      simp
    · intro he
      exact hkBL (by rw [← he]; simp)

/-- Witness for claim C5: on the full capacity-3 cache with key order
`[3, 2, 1]`, reading key 1 promotes it; setting fresh key 4 then evicts
key 2, not key 1. -/
theorem claim_C5_witness :
    SizedCache.Reachable exFull3 ∧
    exFull3.key_order = ([3] ++ [2]) ++ [1] ∧
    exFull3.cache_size = exFull3.capacity ∧
    (4 : Nat) ∉ exFull3.key_order ∧
    ∃ v cg, SizedCache.cache_get exFull3 1 = some (some v, cg) ∧
      (1, v) ∈ exFull3.order.iter ∧
      cg.hits = exFull3.hits + 1 ∧ cg.misses = exFull3.misses ∧
      cg.key_order = 1 :: ([3] ++ [2]) ∧
      ∃ c2, SizedCache.cache_set cg 4 40 = some c2 ∧
        c2.key_order = 4 :: 1 :: [3] ∧
        1 ∈ c2.key_order ∧ 2 ∉ c2.key_order := by
  have hreach : SizedCache.Reachable exFull3 :=
    ⟨3, exBase3, [CacheOp.set 1 10, CacheOp.set 2 20, CacheOp.set 3 30],
      rfl, rfl⟩
  refine ⟨hreach, by decide, by decide, by decide, ?_⟩
  exact claim_C5 hreach [3] 2 1 (by decide) (by decide) 4 (by decide) 40

end Claims
